import Mathlib

/-
Verification of the extensible recursive input loader of the kagutils
repository (src/kagutils.py, with the variant copy in
src/kaggle/usr/lib/kaggleutils.py).

The development is a shallow embedding:

* the filesystem is an inductive tree of named entries; a file is either a
  plain byte file or a well-formed zip archive carrying its member tree
  (on disk an archive is just bytes, but the tree of members is what
  `zipfile` exposes, so it is carried in the constructor);
* `pandas.read_csv` / `json.load` are modelled as injective wrappers of the
  raw file text (equal bytes give equal values, distinct bytes give
  distinct model values); `sqlite3.connect` never reads the file and just
  returns a handle for the path;
* the `os.walk`-based `load_inputs` is modelled by fuelled mutual
  recursion returning `Option` — `none` models a raised exception (or fuel
  exhaustion, which mirrors Python's finite recursion stack); the caller
  scope is a finite map `String → Option Value`, matching dict semantics;
* console output is modelled by a list of structured messages; the
  three-line "no input files" block is one `Msg.noInputFiles` message;
* paths are lists of name components relative to the input root;
  `os.path.join` concatenates with "/".
-/

set_option autoImplicit false

/-! ## `os.path.splitext` (posixpath semantics)

`posixpath.splitext` finds the last `'.'` after the last `'/'` and splits
there, unless every character of the final component before that dot is
itself a dot (leading dots of a basename never start an extension).
-/

/-- Splits a character list at the first occurrence of `sep` from the left:
`breakRev sep r = some (t, d)` means `r = t ++ sep :: d` and `sep ∉ t`. -/
def breakRev (sep : Char) : List Char → Option (List Char × List Char)
  | [] => none
  | c :: rest =>
    if c = sep then some ([], rest)
    else (breakRev sep rest).map (fun pr => (c :: pr.1, pr.2))

/-- Extension split of a path's final component: mirrors the loop of
`posixpath.splitext` over the basename (no extension when the characters
before the last dot are all dots). -/
def splitextBase (b : List Char) : List Char × List Char :=
  match breakRev '.' b.reverse with
  | none => (b, [])
  | some (t, pre) =>
    if pre.any (fun c => c != '.') then (pre.reverse, '.' :: t.reverse)
    else (b, [])

/-- Model of `os.path.splitext` on POSIX paths: splits off the extension of
the final path component, returning `(root, ext)` with `root ++ ext`
equal to the input. -/
def splitext (p : String) : String × String :=
  match breakRev '/' p.data.reverse with
  | none =>
    let se := splitextBase p.data
    (⟨se.1⟩, ⟨se.2⟩)
  | some (t, d) =>
    let se := splitextBase t.reverse
    (⟨d.reverse ++ '/' :: se.1⟩, ⟨se.2⟩)

/-- Model of `os.path.dirname`: everything before the last `'/'`
(empty when there is no separator). -/
def dirnameOf (p : String) : String :=
  match breakRev '/' p.data.reverse with
  | none => ⟨[]⟩
  | some (_, d) => ⟨d.reverse⟩

/-- Model of Python `str.endswith`: suffix test on the character list. -/
def pyEndsWith (s suffix : String) : Bool :=
  suffix.data.isSuffixOf s.data

/-- Model of Python `str.lower` (character-wise lower-casing). -/
def pyLower (s : String) : String :=
  ⟨s.data.map Char.toLower⟩

/-! ## Data model: filesystem, loaded values, console messages -/

mutual
/-- A filesystem object: a plain file with raw text, a file that is a
well-formed zip archive with its member tree, or a directory. -/
inductive Node where
  | file (content : String)
  | zipf (members : Entries)
  | dir (entries : Entries)
/-- The named entries of a directory (or of an archive), in listing order. -/
inductive Entries where
  | nil
  | cons (name : String) (node : Node) (rest : Entries)
end

/-- A value produced by a loader: `pandas.DataFrame` from `load_csv`,
`dict` from `load_json`, `sqlite3.Connection` from `load_sqlite`, or the
`str` extraction directory returned by `load_zip` through the registry. -/
inductive Value where
  | dataFrame (csvText : String)
  | dict (jsonText : String)
  | conn (filepath : String)
  | str (s : String)
deriving DecidableEq, Repr

/-- `type(data).__name__` for the loaded value, as printed by
`load_inputs`. -/
def tyName : Value → String
  | .dataFrame _ => "DataFrame"
  | .dict _ => "dict"
  | .conn _ => "Connection"
  | .str _ => "str"

/-- One console message of the loader. The three-line "no input files"
guidance block of `load_inputs` is modelled as the single message
`noInputFiles`. -/
inductive Msg where
  | loaded (key : String) (typeName : String) (filename : String)
  | unsupported (ext : String)
  | noInputFiles
deriving DecidableEq, Repr

/-- The caller-supplied scope (`globals()`/`locals()`): a mutable mapping
from variable name to value, modelled extensionally. -/
def Ns : Type := String → Option Value

/-- `scope[file_key] = data`: dict assignment. -/
def nsSet (ns : Ns) (k : String) (v : Value) : Ns :=
  fun q => if q = k then some v else ns q

/-- The state threaded through a `load_inputs` run: current filesystem
content of the input root, caller scope, and console output so far. -/
structure St where
  fs : Entries
  ns : Ns
  out : List Msg

/-! ## Basic operations on the filesystem tree -/

/-- First entry with the given name, as the OS resolves a path component. -/
def Entries.lookup : Entries → String → Option Node
  | .nil, _ => none
  | .cons n nd rest, m => if n = m then some nd else rest.lookup m

def Entries.isNil : Entries → Bool
  | .nil => true
  | .cons _ _ _ => false

def isDirN : Node → Bool
  | .dir _ => true
  | _ => false

/-- The `filenames` list that `os.walk` yields for a directory. -/
def Entries.fileNames : Entries → List String
  | .nil => []
  | .cons n nd rest =>
    (if isDirN nd then [] else [n]) ++ rest.fileNames

/-- The `dirnames` list that `os.walk` yields for a directory. -/
def Entries.dirNames : Entries → List String
  | .nil => []
  | .cons n nd rest =>
    (if isDirN nd then [n] else []) ++ rest.dirNames

/-- Replaces the node of the first entry with the given name. -/
def Entries.replaceE : Entries → String → Node → Entries
  | .nil, _, _ => .nil
  | .cons n nd rest, m, x =>
    if n = m then .cons n x rest else .cons n nd (rest.replaceE m x)

/-- Appends a fresh entry at the end of the listing. -/
def Entries.appendE : Entries → String → Node → Entries
  | .nil, m, x => .cons m x .nil
  | .cons n nd rest, m, x => .cons n nd (rest.appendE m x)

/-- Resolves a relative path from a node. -/
def Node.getPath : Node → List String → Option Node
  | nd, [] => some nd
  | .dir es, n :: rest =>
    match es.lookup n with
    | some nd => nd.getPath rest
    | none => none
  | _, _ :: _ => none

/-- Whether a path resolves to a file (plain or archive). -/
def isFileAt (root : Entries) (path : List String) : Bool :=
  match (Node.dir root).getPath path with
  | some (.file _) => true
  | some (.zipf _) => true
  | _ => false

/-- `os.path.join` of the input root, a directory path and a filename. -/
def joinPath (p : List String) (f : String) : String :=
  String.intercalate "/" (p ++ [f])

/-! ## Archive extraction (`zipfile.ZipFile(...).extractall`)

`extractall` writes each member below the target directory, creating
missing parent directories and overwriting existing files; writing a file
where a directory sits (or a member directory where a file sits) raises,
which `none` models. With no members nothing at all is written. -/

mutual
/-- Effect of extracting `incoming` on top of an existing node. -/
def mergeNode : Node → Node → Option Node
  | .dir old, .dir incoming => (mergeEntries old incoming).map .dir
  | .dir _, _ => none
  | _, .dir _ => none
  | _, incoming => some incoming
/-- Folds the incoming member entries into an existing listing. -/
def mergeEntries : Entries → Entries → Option Entries
  | old, .nil => some old
  | old, .cons n nd rest =>
    match old.lookup n with
    | none => mergeEntries (old.appendE n nd) rest
    | some oldN =>
      match mergeNode oldN nd with
      | none => none
      | some merged => mergeEntries (old.replaceE n merged) rest
end

/-- Extracts archive members `ms` into the child directory `t` of the
directory at `p`, mirroring `zip_ref.extractall(extract_dir)`. -/
def updateAt : Entries → List String → String → Entries → Option Entries
  | es, [], t, ms => mergeEntries es (.cons t (.dir ms) .nil)
  | es, n :: rest, t, ms =>
    match es.lookup n with
    | some (.dir es1) =>
      match updateAt es1 rest t ms with
      | some es2 => some (es.replaceE n (.dir es2))
      | none => none
    | _ => none

/-! ## The extension registry and `load_file` -/

/-- Tag naming one of the registered loader functions. -/
inductive LoaderTag where
  | csv
  | json
  | sqlite
  | zip
deriving DecidableEq, Repr

/-- The `file_loaders` mapping from extension string to loader
(`'.csv': load_csv, '.json': load_json, '.sqlite': load_sqlite,
'.zip': load_zip`). -/
def file_loaders : List (String × LoaderTag) :=
  [(".csv", .csv), (".json", .json), (".sqlite", .sqlite), (".zip", .zip)]

/-- `file_loaders.get(ext)`: exact-string dictionary lookup. -/
def file_loaders_get (ext : String) : Option LoaderTag :=
  match file_loaders.find? (fun kv => kv.1 = ext) with
  | some kv => some kv.2
  | none => none

/-- Pure semantics of the non-archive loaders applied to a file node.
`load_csv`/`load_json` parse the raw text and raise on anything that is
not parseable text (an archive-shaped file), modelled by `none`;
`sqlite3.connect` succeeds lazily on any path. The `.zip` registry entry
is handled separately because `load_zip` has a filesystem effect. -/
def loadVal (tag : LoaderTag) (filepath : String) (nd : Node) : Option Value :=
  match tag with
  | .csv => match nd with | .file s => some (.dataFrame s) | _ => none
  | .json => match nd with | .file s => some (.dict s) | _ => none
  | .sqlite => some (.conn filepath)
  | .zip => none

/-- Pure part of `load_zip`: the extraction directory it resolves and
returns (`os.path.splitext(filepath)[0]` when none is supplied). The
filesystem effect of its `extractall` is `updateAt` in the walk below. -/
def load_zip (filepath : String) (extract_dir : Option String) : String :=
  match extract_dir with
  | some d => d
  | none => (splitext filepath).1

/-- `load_file`, standalone: derives the extension with `splitext`, looks
it up in `file_loaders` (exactly, no case folding), prints
"Unsupported file type" and returns `None` when absent, otherwise invokes
the loader. The `.zip` entry returns the extraction directory string
(its extraction side effect is not used by `load_inputs`, which routes
`.zip`-suffixed names to the archive branch instead — see
`splitext_ne_zip_of_not_endsWith`). -/
def load_file (filepath : String) (nd : Node) : Option Value × List Msg :=
  let ext := (splitext filepath).2
  match file_loaders_get ext with
  | none => (none, [Msg.unsupported ext])
  | some .zip => (some (.str (load_zip filepath none)), [])
  | some tag => (loadVal tag filepath nd, [])

/-- Modelled from the spec: the Single-File Loader as §3 of the spec words
it, looking up "the lower-cased suffix including the leading separator"
in the registry (the code itself never lower-cases — this definition
exists only to be compared against `load_file`). -/
def load_file_lowered (filepath : String) (nd : Node) : Option Value × List Msg :=
  let ext := pyLower (splitext filepath).2
  match file_loaders_get ext with
  | none => (none, [Msg.unsupported ext])
  | some .zip => (some (.str (load_zip filepath none)), [])
  | some tag => (loadVal tag filepath nd, [])

/-! ## `load_inputs` (src/kagutils.py)

Fuelled mutual recursion; each call consumes one unit of fuel, and `none`
models a raised exception or exhausted stack. `walkDir`/`walkDirs` mirror
the `os.walk(input_dir)` loop: a directory is scanned when reached
(current filesystem state), its files are processed first, then its
subdirectories in listing order; a path that no longer resolves to a
directory yields nothing, like `os.walk` on a missing or non-directory
path. The `found` flag is the local `found_files` of one `load_inputs`
call; the recursive call on an extraction directory starts a fresh one. -/

mutual
/-- One Python-level call `load_inputs(input_dir=p, scope, quiet)`. -/
def loadInputsAux : Nat → List String → Bool → St → Option St
  | 0, _, _, _ => none
  | fuel + 1, p, quiet, st =>
    match walkDir fuel p quiet st false with
    | none => none
    | some (st1, found) =>
      some { st1 with
             out := st1.out ++ (if !found && !quiet then [Msg.noInputFiles] else []) }
/-- `os.walk` reaching path `p`: scan, process files, then subdirectories. -/
def walkDir : Nat → List String → Bool → St → Bool → Option (St × Bool)
  | 0, _, _, _, _ => none
  | fuel + 1, p, quiet, st, found =>
    match (Node.dir st.fs).getPath p with
    | some (.dir es) =>
      let files := es.fileNames
      let dirs := es.dirNames
      let found1 := found || !files.isEmpty
      match processFiles fuel p files quiet st with
      | none => none
      | some st1 => walkDirs fuel p dirs quiet st1 found1
    | _ => some (st, found)
/-- The recursion of `os.walk` into the scanned subdirectory names. -/
def walkDirs : Nat → List String → List String → Bool → St → Bool → Option (St × Bool)
  | 0, _, _, _, _, _ => none
  | _ + 1, _, [], _, st, found => some (st, found)
  | fuel + 1, p, n :: rest, quiet, st, found =>
    match walkDir fuel (p ++ [n]) quiet st found with
    | none => none
    | some (st1, found1) => walkDirs fuel p rest quiet st1 found1
/-- The `for filename in filenames` loop body applied to each file. -/
def processFiles : Nat → List String → List String → Bool → St → Option St
  | 0, _, _, _, _ => none
  | _ + 1, _, [], _, st => some st
  | fuel + 1, p, f :: rest, quiet, st =>
    match processFile fuel p f quiet st with
    | none => none
    | some st1 => processFiles fuel p rest quiet st1
/-- One iteration of the file loop: the archive branch for names ending in
".zip" (extract, then recurse with a fresh `found_files`), otherwise
`load_file` and, for a non-`None` value, the key derivation and scope
assignment of lines 235–250 of src/kagutils.py. -/
def processFile : Nat → List String → String → Bool → St → Option St
  | 0, _, _, _, _ => none
  | fuel + 1, p, f, quiet, st =>
    if pyEndsWith f ".zip" then
      match (Node.dir st.fs).getPath (p ++ [f]) with
      | some (.zipf ms) =>
        let t := (splitext f).1
        match (if ms.isNil then some st.fs else updateAt st.fs p t ms) with
        | none => none
        | some fs1 => loadInputsAux fuel (p ++ [t]) quiet { st with fs := fs1 }
      | _ => none
    else
      let ext := (splitext f).2
      match file_loaders_get ext with
      | none => some { st with out := st.out ++ [Msg.unsupported ext] }
      | some tag =>
        match (Node.dir st.fs).getPath (p ++ [f]) with
        | some nd =>
          match loadVal tag (joinPath p f) nd with
          | some v =>
            let file_key := (splitext f).1
            let key :=
              match v with
              | .dataFrame _ => "df_" ++ file_key
              | .dict _ => file_key ++ "_dict"
              | _ => file_key
            some { st with
                   ns := nsSet st.ns key v,
                   out := st.out ++
                     (if quiet then [] else [Msg.loaded key (tyName v) f]) }
          | none => none
        | _ => none
end

/-- `load_inputs(input_dir, scope, quiet)` on an input root holding the
given entries, with an explicit caller scope. -/
def load_inputs (fuel : Nat) (input_dir : Entries) (scope : Ns) (quiet : Bool) :
    Option St :=
  loadInputsAux fuel [] quiet ⟨input_dir, scope, []⟩

/-! ## `load_inputs` (src/kaggle/usr/lib/kaggleutils.py)

The utility-script copy differs from src/kagutils.py: its (second,
effective) `load_inputs` has no `quiet` parameter and no `found_files`
flag, appends the suffix "_df" to DataFrame keys instead of prepending
"df_", and its archive branch calls the undefined name `load_input_data`,
so reaching a `.zip`-suffixed file raises `NameError` right after
extraction; the raised exception is modelled by `none` (the partially
mutated state that a real exception would leave behind is not needed by
any claim and is discarded with it). -/

mutual
/-- `os.walk` loop of the kaggleutils `load_inputs`. -/
def kgluWalkDir : Nat → List String → St → Option St
  | 0, _, _ => none
  | fuel + 1, p, st =>
    match (Node.dir st.fs).getPath p with
    | some (.dir es) =>
      match kgluFiles fuel p es.fileNames st with
      | none => none
      | some st1 => kgluWalkDirs fuel p es.dirNames st1
    | _ => some st
/-- Subdirectory recursion of the kaggleutils walk. -/
def kgluWalkDirs : Nat → List String → List String → St → Option St
  | 0, _, _, _ => none
  | _ + 1, _, [], st => some st
  | fuel + 1, p, n :: rest, st =>
    match kgluWalkDir fuel (p ++ [n]) st with
    | none => none
    | some st1 => kgluWalkDirs fuel p rest st1
/-- File loop of the kaggleutils walk. -/
def kgluFiles : Nat → List String → List String → St → Option St
  | 0, _, _, _ => none
  | _ + 1, _, [], st => some st
  | fuel + 1, p, f :: rest, st =>
    match kgluFile fuel p f st with
    | none => none
    | some st1 => kgluFiles fuel p rest st1
/-- One file of the kaggleutils loop: lines 185–211 of
src/kaggle/usr/lib/kaggleutils.py. -/
def kgluFile : Nat → List String → String → St → Option St
  | 0, _, _, _ => none
  | _ + 1, p, f, st =>
    if pyEndsWith f ".zip" then
      none
    else
      let ext := (splitext f).2
      match file_loaders_get ext with
      | none => some { st with out := st.out ++ [Msg.unsupported ext] }
      | some tag =>
        match (Node.dir st.fs).getPath (p ++ [f]) with
        | some nd =>
          match loadVal tag (joinPath p f) nd with
          | some v =>
            let file_key := (splitext f).1
            let key :=
              match v with
              | .dataFrame _ => file_key ++ "_df"
              | .dict _ => file_key ++ "_dict"
              | _ => file_key
            some { st with
                   ns := nsSet st.ns key v,
                   out := st.out ++ [Msg.loaded key (tyName v) f] }
          | none => none
        | _ => none
end

/-- The kaggleutils `load_inputs(input_dir, scope)`. -/
def kaggleutils_load_inputs (fuel : Nat) (input_dir : Entries) (scope : Ns) :
    Option St :=
  kgluWalkDir fuel [] ⟨input_dir, scope, []⟩

/-- Builds an `Entries` listing from a list of named nodes. -/
def E (l : List (String × Node)) : Entries :=
  l.foldr (fun kv acc => .cons kv.1 kv.2 acc) .nil

/-- The empty caller scope used by the concrete counterexamples. -/
def emptyNs : Ns := fun _ => none

/-! ## Structural predicates on input trees -/

mutual
/-- No entry name anywhere in the directory tree ends in ".zip"
(such trees never reach the archive branch of `load_inputs`). -/
def noZipN : Node → Bool
  | .dir es => noZipE es
  | _ => true
def noZipE : Entries → Bool
  | .nil => true
  | .cons n nd rest => !(pyEndsWith n ".zip") && noZipN nd && noZipE rest
end

mutual
/-- Some file (plain or archive) exists somewhere in the tree. -/
def hasFilesN : Node → Bool
  | .dir es => hasFilesE es
  | _ => true
def hasFilesE : Entries → Bool
  | .nil => false
  | .cons _ nd rest => hasFilesN nd || hasFilesE rest
end

mutual
/-- Every file in the tree has an extension absent from `file_loaders`. -/
def allUnregN : Node → Bool
  | .dir es => allUnregE es
  | _ => true
def allUnregE : Entries → Bool
  | .nil => true
  | .cons n nd rest =>
    (match nd with
     | .dir es => allUnregE es
     | _ => !(file_loaders_get (splitext n).2).isSome) && allUnregE rest
end

mutual
/-- Entry names are pairwise distinct in every directory listing, as on a
real filesystem. -/
def uniqN : Node → Bool
  | .dir es => uniqE es
  | _ => true
def uniqE : Entries → Bool
  | .nil => true
  | .cons n nd rest => !(rest.lookup n).isSome && uniqN nd && uniqE rest
end

/-- Whether the directory reached by `p` contains a file somewhere below. -/
def hasFilesAt (root : Entries) (p : List String) : Bool :=
  match (Node.dir root).getPath p with
  | some (.dir es) => hasFilesE es
  | _ => false

/-! ## Preservation relation for the filesystem effect

`NodePres a b` says every path reachable in `a` is still reachable in `b`
with the same kind (file vs directory); extraction may overwrite file
contents and add entries, but never deletes and never changes an object's
kind (a cross-kind overwrite raises instead, see `mergeNode`). -/

/-- The resolved object is a file (plain or archive). -/
def isFileP (o : Option Node) : Bool :=
  match o with
  | some nd => !isDirN nd
  | none => false

/-- The resolved object is a directory. -/
def isDirP (o : Option Node) : Bool :=
  match o with
  | some nd => isDirN nd
  | none => false

/-- Kind-preserving reachability between two filesystem objects. -/
def NodePres (a b : Node) : Prop :=
  ∀ π : List String,
    (isFileP (a.getPath π) = true → isFileP (b.getPath π) = true) ∧
    (isDirP (a.getPath π) = true → isDirP (b.getPath π) = true)

/-- Kind-preserving reachability between two directory listings. -/
def EntriesPres (a b : Entries) : Prop :=
  NodePres (.dir a) (.dir b)

/-! # Theorems

First, structure of `splitext`: the two components always reassemble to
the input, the extension contains no path separator, and the directory
part is untouched. -/

theorem breakRev_eq {sep : Char} :
    ∀ {r t d : List Char}, breakRev sep r = some (t, d) → r = t ++ sep :: d ∧ sep ∉ t := by
  intro r
  induction r with
  | nil => intro t d h; simp [breakRev] at h
  | cons c rest ih =>
    intro t d h
    by_cases hc : c = sep
    · rw [breakRev, if_pos hc] at h
      obtain ⟨ht, hd⟩ := Prod.mk.injEq .. ▸ Option.some.inj h
      subst ht; subst hd; subst hc
      exact ⟨rfl, List.not_mem_nil c⟩
    · rw [breakRev, if_neg hc] at h
      match hrest : breakRev sep rest with
      | none => rw [hrest] at h; simp at h
      | some (t1, d1) =>
        rw [hrest] at h
        obtain ⟨ht, hd⟩ := Prod.mk.injEq .. ▸ Option.some.inj h
        obtain ⟨hr, hm⟩ := ih hrest
        subst ht; subst hd
        refine ⟨by rw [hr]; rfl, ?_⟩
        intro hmem
        rcases List.mem_cons.mp hmem with h1 | h1
        · exact hc h1.symm
        · exact hm h1

theorem breakRev_none {sep : Char} :
    ∀ {r : List Char}, breakRev sep r = none → sep ∉ r := by
  intro r
  induction r with
  | nil => intro _; exact List.not_mem_nil sep
  | cons c rest ih =>
    intro h hmem
    by_cases hc : c = sep
    · rw [breakRev, if_pos hc] at h; simp at h
    · rw [breakRev, if_neg hc] at h
      rcases List.mem_cons.mp hmem with h1 | h1
      · exact hc h1.symm
      · match hrest : breakRev sep rest with
        | none => exact ih hrest h1
        | some pr => rw [hrest] at h; simp at h

theorem splitextBase_append (b : List Char) :
    (splitextBase b).1 ++ (splitextBase b).2 = b := by
  rw [splitextBase]
  match hb : breakRev '.' b.reverse with
  | none => simp
  | some (t, pre) =>
    obtain ⟨hr, _⟩ := breakRev_eq hb
    by_cases hany : pre.any (fun c => c != '.')
    · simp only [hany, if_pos]
      have hb2 : b = pre.reverse ++ '.' :: t.reverse := by
        have := congrArg List.reverse hr
        simpa [List.reverse_append] using this
      simp [hb2]
    · simp [hany]

theorem breakRev_of_not_mem {sep : Char} :
    ∀ {r : List Char}, sep ∉ r → breakRev sep r = none := by
  intro r
  induction r with
  | nil => intro _; rfl
  | cons c rest ih =>
    intro h
    have hc : ¬c = sep := fun hc => h (hc ▸ List.mem_cons_self c rest)
    rw [breakRev, if_neg hc, ih (fun hm => h (List.mem_cons_of_mem c hm))]
    rfl

theorem breakRev_append {sep : Char} :
    ∀ {l d : List Char}, sep ∉ l → breakRev sep (l ++ sep :: d) = some (l, d) := by
  intro l
  induction l with
  | nil => intro d _; simp [breakRev]
  | cons c rest ih =>
    intro d h
    have hc : ¬c = sep := fun hc => h (hc ▸ List.mem_cons_self c rest)
    rw [List.cons_append, breakRev, if_neg hc,
      ih (fun hm => h (List.mem_cons_of_mem c hm))]
    rfl

theorem splitextBase_fst_subset {b : List Char} {c : Char} :
    c ∈ (splitextBase b).1 → c ∈ b := by
  rw [splitextBase]
  match hb : breakRev '.' b.reverse with
  | none => intro h; simpa using h
  | some (t, pre) =>
    obtain ⟨hr, _⟩ := breakRev_eq hb
    by_cases hany : pre.any (fun ch => ch != '.')
    · simp only [hany, if_pos]
      intro h
      have : c ∈ b.reverse := by
        rw [hr]
        exact List.mem_append_right t (List.mem_cons_of_mem _ (List.mem_reverse.mp h))
      exact List.mem_reverse.mp this
    · simp only [hany, if_neg]
      intro h; simpa using h

theorem splitextBase_snd_subset {b : List Char} {c : Char} :
    c ∈ (splitextBase b).2 → c = '.' ∨ c ∈ b := by
  rw [splitextBase]
  match hb : breakRev '.' b.reverse with
  | none => intro h; simp at h
  | some (t, pre) =>
    obtain ⟨hr, _⟩ := breakRev_eq hb
    by_cases hany : pre.any (fun ch => ch != '.')
    · simp only [hany, if_pos]
      intro h
      rcases List.mem_cons.mp h with h1 | h1
      · exact Or.inl h1
      · refine Or.inr ?_
        have : c ∈ b.reverse := by
          rw [hr]
          exact List.mem_append_left _ (List.mem_reverse.mp h1)
        exact List.mem_reverse.mp this
    · simp only [hany, if_neg]
      intro h; simp at h

/-- The two results of `splitext` reassemble to the argument
(`root + ext == path` in Python terms). -/
theorem splitext_append (p : String) :
    (splitext p).1 ++ (splitext p).2 = p := by
  apply String.ext
  rw [String.data_append, splitext]
  match hb : breakRev '/' p.data.reverse with
  | none =>
    simpa using splitextBase_append p.data
  | some (t, d) =>
    obtain ⟨hr, _⟩ := breakRev_eq hb
    have hp : p.data = d.reverse ++ '/' :: t.reverse := by
      have := congrArg List.reverse hr
      simpa [List.reverse_append] using this
    have hsb := splitextBase_append t.reverse
    simp only []
    rw [hp]
    simp [List.append_assoc, hsb]

/-- The extension never contains a path separator. -/
theorem splitext_snd_no_sep (p : String) : '/' ∉ (splitext p).2.data := by
  rw [splitext]
  match hb : breakRev '/' p.data.reverse with
  | none =>
    intro h
    have h2 := splitextBase_snd_subset (b := p.data) h
    rcases h2 with h2 | h2
    · exact absurd h2 (by decide)
    · exact breakRev_none hb (List.mem_reverse.mpr h2)
  | some (t, d) =>
    obtain ⟨_, hnm⟩ := breakRev_eq hb
    intro h
    have h2 := splitextBase_snd_subset (b := t.reverse) h
    rcases h2 with h2 | h2
    · exact absurd h2 (by decide)
    · exact hnm (List.mem_reverse.mp h2)

/-- Stripping the extension never changes the directory part of the path. -/
theorem splitext_dirname (p : String) :
    dirnameOf (splitext p).1 = dirnameOf p := by
  rw [splitext]
  match hb : breakRev '/' p.data.reverse with
  | none =>
    have hnp : '/' ∉ p.data := fun hm => breakRev_none hb (List.mem_reverse.mpr hm)
    have hns : '/' ∉ (splitextBase p.data).1 :=
      fun hm => hnp (splitextBase_fst_subset hm)
    simp only [dirnameOf, hb]
    rw [breakRev_of_not_mem (fun hm => hns (List.mem_reverse.mp hm))]
  | some (t, d) =>
    obtain ⟨hr, hnm⟩ := breakRev_eq hb
    have hns : '/' ∉ (splitextBase t.reverse).1 := by
      intro hm
      exact hnm (List.mem_reverse.mp (splitextBase_fst_subset hm))
    simp only [dirnameOf, hb]
    have : ((⟨d.reverse ++ '/' :: (splitextBase t.reverse).1⟩ : String)).data.reverse =
        (splitextBase t.reverse).1.reverse ++ '/' :: d := by
      simp [List.reverse_append]
    rw [this, breakRev_append (fun hm => hns (List.mem_reverse.mp hm))]

/-- When the path has a (nonempty) extension, stripping it produces a new
name. -/
theorem splitext_fst_ne (p : String) (h : (splitext p).2 ≠ "") :
    (splitext p).1 ≠ p := by
  intro heq
  have hlen := congrArg String.length (splitext_append p)
  rw [String.length_append, heq] at hlen
  have h0 : (splitext p).2.length = 0 := by omega
  apply h
  apply String.ext
  have : (splitext p).2.data.length = 0 := h0
  simpa using List.length_eq_zero.mp this

/-- The extension returned by `splitext` is a suffix of the path in the
sense of `str.endswith`. -/
theorem pyEndsWith_splitext (p : String) :
    pyEndsWith p (splitext p).2 = true := by
  rw [pyEndsWith]
  apply List.isSuffixOf_iff_suffix.mpr
  refine ⟨(splitext p).1.data, ?_⟩
  have := congrArg String.data (splitext_append p)
  rwa [String.data_append] at this

/-- A name that does not end in ".zip" cannot have splitext extension
".zip": inside `load_inputs` the else-branch never dispatches to the
`.zip` registry entry. -/
theorem splitext_ne_zip_of_not_endsWith (f : String)
    (h : pyEndsWith f ".zip" = false) : (splitext f).2 ≠ ".zip" := by
  intro he
  have := pyEndsWith_splitext f
  rw [he] at this
  rw [this] at h
  simp at h

/-! ## Claim C7: derivation of the extraction directory in `load_zip` -/

/-- C7: when `load_zip` is called without a target directory it derives the
extraction directory by stripping the archive's extension from its path —
the result recombines with the extension to the original path, lies in the
same directory, and (when there is an extension to strip) is a new name —
and that resolved directory is what it returns. -/
theorem c7_load_zip_derived_target (filepath : String) :
    load_zip filepath none = (splitext filepath).1 ∧
    (splitext filepath).1 ++ (splitext filepath).2 = filepath ∧
    dirnameOf ((splitext filepath).1) = dirnameOf filepath ∧
    ((splitext filepath).2 ≠ "" → (splitext filepath).1 ≠ filepath) :=
  ⟨rfl, splitext_append filepath, splitext_dirname filepath,
   splitext_fst_ne filepath⟩

/-- Witness for C7 at the concrete archive path "data/archive.zip". -/
theorem c7_load_zip_derived_target_witness :
    load_zip "data/archive.zip" none = (splitext "data/archive.zip").1 ∧
    (splitext "data/archive.zip").2 ≠ "" ∧
    (splitext "data/archive.zip").1 ≠ "data/archive.zip" :=
  ⟨(c7_load_zip_derived_target "data/archive.zip").1, by decide,
   (c7_load_zip_derived_target "data/archive.zip").2.2.2 (by decide)⟩

/-! ## Claim C5: registry lookup is not lower-cased -/

/-- C5, counterexample: for the path "DATA.CSV" the code looks up the
suffix ".CSV" exactly as derived — not lower-cased as the claim states —
so the lookup misses even though the lower-cased suffix is registered, and
`load_file` reports an unsupported type. -/
theorem c5_uppercase_extension_missed :
    (splitext "DATA.CSV").2 = ".CSV" ∧
    file_loaders_get ".CSV" = none ∧
    file_loaders_get (pyLower ".CSV") = some .csv ∧
    load_file "DATA.CSV" (.file "x") = (none, [Msg.unsupported ".CSV"]) :=
  ⟨by decide, by decide, by decide, by decide⟩

/-- C5, amended: registry lookup in `load_file` is an exact, case-sensitive
match on the suffix exactly as `splitext` derives it; it agrees with the
spec's lower-cased lookup (`load_file_lowered`) whenever the suffix is
already lower-case. -/
theorem c5_exact_extension_lookup (p : String) (nd : Node)
    (h : pyLower (splitext p).2 = (splitext p).2) :
    load_file p nd = load_file_lowered p nd := by
  rw [load_file, load_file_lowered, h]

/-- Witness for C5 at the concrete path "a.csv". -/
theorem c5_exact_extension_lookup_witness :
    load_file "a.csv" (.file "x") = load_file_lowered "a.csv" (.file "x") :=
  c5_exact_extension_lookup "a.csv" (.file "x") (by decide)

/-! ## Claim C1: naming law of the namespace keys -/

/-- C1, counterexample: the `load_inputs` of
src/kaggle/usr/lib/kaggleutils.py binds a loaded DataFrame under
`base + "_df"` (suffix), not under `"df_" + base` as the claim states: on
a directory holding only "data.csv" it binds "data_df" and leaves
"df_data" unbound. -/
theorem c1_kaggleutils_df_suffix :
    (kaggleutils_load_inputs 10 (E [("data.csv", .file "v")]) emptyNs).map
      (fun st => (st.ns "df_data", st.ns "data_df")) =
      some (none, some (.dataFrame "v")) := by
  decide

/-- C1, amended: in src/kagutils.py the law holds as claimed — whenever the
file loop of `load_inputs` loads a value through the registry, a DataFrame
is bound under `"df_" + base`, a dict under `base + "_dict"`, and any
other non-None value under `base` unmodified (`base` the filename without
its extension); the kaggleutils.py copy instead uses the suffix
`base + "_df"` for DataFrames (see the counterexample). -/
theorem c1_naming_law (fuel : Nat) (p : List String) (f : String)
    (quiet : Bool) (st : St) (tag : LoaderTag) (nd : Node) (v : Value)
    (hz : pyEndsWith f ".zip" = false)
    (htag : file_loaders_get (splitext f).2 = some tag)
    (hnd : (Node.dir st.fs).getPath (p ++ [f]) = some nd)
    (hv : loadVal tag (joinPath p f) nd = some v) :
    processFile (fuel + 1) p f quiet st =
      some { st with
             ns := nsSet st.ns
               (match v with
                | .dataFrame _ => "df_" ++ (splitext f).1
                | .dict _ => (splitext f).1 ++ "_dict"
                | _ => (splitext f).1) v,
             out := st.out ++
               (if quiet then []
                else [Msg.loaded
                  (match v with
                   | .dataFrame _ => "df_" ++ (splitext f).1
                   | .dict _ => (splitext f).1 ++ "_dict"
                   | _ => (splitext f).1) (tyName v) f]) } := by
  rw [processFile, hz]
  simp only [Bool.false_eq_true, if_false, htag, hnd, hv]
  cases v <;> rfl

/-- Witness for C1 on the single file "data.csv". -/
theorem c1_naming_law_witness :
    processFile 1 [] "data.csv" false ⟨E [("data.csv", .file "v")], emptyNs, []⟩ =
      some { fs := E [("data.csv", .file "v")],
             ns := nsSet emptyNs ("df_" ++ (splitext "data.csv").1) (.dataFrame "v"),
             out := [] ++ [Msg.loaded ("df_" ++ (splitext "data.csv").1)
               (tyName (.dataFrame "v")) "data.csv"] } :=
  c1_naming_law 0 [] "data.csv" false
    ⟨E [("data.csv", .file "v")], emptyNs, []⟩ .csv (.file "v") (.dataFrame "v")
    (by decide) (by decide) (by rfl) (by rfl)

/-! ## Claim C6: unregistered extensions are skipped, not fatal -/

/-- C6, counterexample: a file named ".zip" has the unregistered splitext
extension "" but is routed to the archive branch by `endswith(".zip")`;
with plain (non-archive) bytes that branch raises `BadZipFile`, so the
walk aborts instead of continuing to the next file. -/
theorem c6_dot_zip_aborts_walk :
    load_inputs 12 (E [(".zip", .file "garbage"), ("data.csv", .file "v")])
      emptyNs false = none := by
  rfl

/-- C6, amended: `load_file` on a path with unregistered extension emits
the informational notice and returns None rather than failing, and for
every such file whose name does not also end in ".zip" the file loop of
`load_inputs` adds no namespace entry, succeeds, and continues with the
next file; a ".zip"-suffixed name takes the archive branch instead. -/
theorem c6_unsupported_skipped :
    (∀ (p : String) (nd : Node), file_loaders_get (splitext p).2 = none →
      load_file p nd = (none, [Msg.unsupported (splitext p).2])) ∧
    (∀ (fuel : Nat) (p : List String) (f : String) (quiet : Bool) (st : St),
      pyEndsWith f ".zip" = false →
      file_loaders_get (splitext f).2 = none →
      processFile (fuel + 1) p f quiet st =
        some { st with out := st.out ++ [Msg.unsupported (splitext f).2] }) := by
  constructor
  · intro p nd h
    rw [load_file, h]
  · intro fuel p f quiet st hz h
    rw [processFile, hz]
    simp only [Bool.false_eq_true, if_false, h]

/-- Witness for C6 on the unregistered file "notes.txt". -/
theorem c6_unsupported_skipped_witness :
    load_file "notes.txt" (.file "n") =
      (none, [Msg.unsupported (splitext "notes.txt").2]) ∧
    processFile 1 [] "notes.txt" false ⟨E [("notes.txt", .file "n")], emptyNs, []⟩ =
      some { fs := E [("notes.txt", .file "n")], ns := emptyNs,
             out := [] ++ [Msg.unsupported (splitext "notes.txt").2] } :=
  ⟨c6_unsupported_skipped.1 "notes.txt" (.file "n") (by decide),
   c6_unsupported_skipped.2 0 [] "notes.txt" false
     ⟨E [("notes.txt", .file "n")], emptyNs, []⟩ (by decide) (by decide)⟩

/-! ## Claim C2: archive transparency -/

/-- C2, counterexample: a directory whose only entry is an archive named
".zip" containing "data.csv". The extraction directory derived by
stripping the extension equals the archive's own path (splitext finds no
extension in ".zip"), so `extractall` tries to write below an existing
file and raises; the run aborts with no `df_data` entry, while the same
"data.csv" placed directly in the root loads fine. -/
theorem c2_dot_zip_archive_fails :
    load_inputs 12 (E [(".zip", .zipf (E [("data.csv", .file "v")]))])
      emptyNs false = none ∧
    (load_inputs 12 (E [("data.csv", .file "v")]) emptyNs false).map
      (fun st => st.ns "df_data") = some (some (.dataFrame "v")) :=
  ⟨by rfl, by decide⟩

/-! ## Claim C3: idempotence of `load_inputs` -/

/-- C3, counterexample: the root holds the archive "z.zip" (member
"data.csv" with text "1") and the directory "a" (holding "data.csv" with
text "2"). The first run binds `df_data` to "1" during the recursion into
the extracted "z" and then to "2" when the walk reaches "a". The second
run on the same directory and namespace re-extracts, then also walks the
now-materialised "z" after "a", so `df_data` ends at "1": running twice
does not equal running once. -/
theorem c3_second_run_changes_scope :
    ((load_inputs 20 (E [("z.zip", .zipf (E [("data.csv", .file "1")])),
                         ("a", .dir (E [("data.csv", .file "2")]))]) emptyNs true).bind
      (fun st1 => (load_inputs 20 st1.fs st1.ns true).map
        (fun st2 => (st1.ns "df_data", st2.ns "df_data")))) =
      some (some (.dataFrame "2"), some (.dataFrame "1")) ∧
    some (Value.dataFrame "2") ≠ some (Value.dataFrame "1") :=
  ⟨by decide, by decide⟩

/-! ## Claim C4: the found-files flag and the guidance notice -/

/-- C4, counterexample: `found_files` is local to each `load_inputs`
invocation, not shared with the recursive call on an extraction
directory. With a single empty archive "bundle.zip" the outer call sees a
file (no outer notice), extraction writes nothing, and the recursive call
walks a non-existent directory and emits the "no input files" notice —
even though a file was encountered in the tree. -/
theorem c4_inner_call_notice :
    (load_inputs 12 (E [("bundle.zip", .zipf .nil)]) emptyNs false).map St.out =
      some [Msg.noInputFiles] ∧
    hasFilesE (E [("bundle.zip", .zipf .nil)]) = true :=
  ⟨by rfl, by rfl⟩

/-! ## Claim C8: unsupported files still count as "files were seen" -/

/-- C8, counterexample: a directory whose one file is named ".zip" (an
empty archive). Its splitext extension "" is unregistered, yet
`load_inputs` emits the no-input-files notice: the name ends in ".zip",
so the file takes the archive branch, extraction of the empty archive
creates nothing, and the recursive call on the never-created extraction
path sees no files and prints the notice. -/
theorem c8_notice_despite_file :
    (load_inputs 12 (E [(".zip", .zipf .nil)]) emptyNs false).map St.out =
      some [Msg.noInputFiles] ∧
    hasFilesE (E [(".zip", .zipf .nil)]) = true ∧
    file_loaders_get (splitext ".zip").2 = none :=
  ⟨by rfl, by rfl, by decide⟩

/-! ## Claim C9: the filesystem frame of `load_inputs` -/

/-- C9, counterexample: the root holds "bundle.zip" (member "data.csv"
with text "v1") next to a pre-existing directory "bundle" whose
"data.csv" holds "v2". Extraction overwrites the pre-existing source file:
after the run it holds "v1". -/
theorem c9_extraction_overwrites :
    (load_inputs 20 (E [("bundle.zip", .zipf (E [("data.csv", .file "v1")])),
                        ("bundle", .dir (E [("data.csv", .file "v2")]))]) emptyNs true).map
      (fun st => (Node.dir st.fs).getPath ["bundle", "data.csv"]) =
      some (some (.file "v1")) ∧
    (Node.dir (E [("bundle.zip", .zipf (E [("data.csv", .file "v1")])),
                  ("bundle", .dir (E [("data.csv", .file "v2")]))])).getPath
      ["bundle", "data.csv"] = some (.file "v2") ∧
    ("v1" : String) ≠ "v2" :=
  ⟨by rfl, by rfl, by decide⟩

/-- C2, amended: archive transparency holds for archives with a proper
extension — for every archive name with splitext extension ".zip" and
every member text, running `load_inputs` on a directory holding only that
archive (with member "data.csv") yields exactly the namespace obtained by
binding "df_data" to the loaded table, the same namespace produced on a
directory holding "data.csv" directly; the archive itself contributes no
entry. -/
theorem c2_archive_transparency (name s : String) (ns : Ns) (quiet : Bool)
    (h : (splitext name).2 = ".zip") :
    (load_inputs 12 (E [(name, .zipf (E [("data.csv", .file s)]))]) ns quiet).map St.ns =
      some (nsSet ns "df_data" (.dataFrame s)) ∧
    (load_inputs 12 (E [("data.csv", .file s)]) ns quiet).map St.ns =
      some (nsSet ns "df_data" (.dataFrame s)) := by
  have hEnds : pyEndsWith name ".zip" = true := by
    have := pyEndsWith_splitext name
    rwa [h] at this
  have hStem : (splitext name).1 ≠ name := splitext_fst_ne name (by rw [h]; decide)
  have hne : (name = (splitext name).1) = False := by
    simp only [eq_iff_iff, iff_false]
    exact fun he => hStem he.symm
  have h1 : (splitext "data.csv").1 = "data" := by decide
  have h2 : (splitext "data.csv").2 = ".csv" := by decide
  have h3 : pyEndsWith "data.csv" ".zip" = false := by decide
  constructor
  · simp [load_inputs, loadInputsAux, walkDir, walkDirs, processFiles, processFile,
      E, Entries.fileNames, Entries.dirNames, isDirN, Entries.isNil, updateAt,
      mergeEntries, Entries.lookup, Entries.appendE, Node.getPath,
      mergeNode, file_loaders_get, file_loaders, loadVal, joinPath,
      hEnds, hne, h1, h2, h3]
  · simp [load_inputs, loadInputsAux, walkDir, walkDirs, processFiles, processFile,
      E, Entries.fileNames, Entries.dirNames, isDirN, Entries.isNil,
      Entries.lookup, Node.getPath, file_loaders_get, file_loaders, loadVal,
      joinPath, h1, h2, h3]

/-- Witness for C2 with the archive "bundle.zip" and member text "1,2". -/
theorem c2_archive_transparency_witness :
    (load_inputs 12 (E [("bundle.zip", .zipf (E [("data.csv", .file "1,2")]))])
        emptyNs false).map St.ns =
      some (nsSet emptyNs "df_data" (.dataFrame "1,2")) ∧
    (load_inputs 12 (E [("data.csv", .file "1,2")]) emptyNs false).map St.ns =
      some (nsSet emptyNs "df_data" (.dataFrame "1,2")) :=
  c2_archive_transparency "bundle.zip" "1,2" emptyNs false (by decide)

/-! ## Noninterference of `quiet` (claim C10)

The `quiet` flag is consulted only at print sites; the filesystem and
scope components of the state (and success of the run) are independent of
it. Proved by one simultaneous induction on fuel over the five mutually
recursive functions. -/

theorem quiet_rel : ∀ fuel : Nat,
    (∀ p q1 q2 st1 st2, st1.fs = st2.fs → st1.ns = st2.ns →
      (loadInputsAux fuel p q1 st1).map (fun st => (st.fs, st.ns)) =
      (loadInputsAux fuel p q2 st2).map (fun st => (st.fs, st.ns))) ∧
    (∀ p q1 q2 st1 st2 found, st1.fs = st2.fs → st1.ns = st2.ns →
      (walkDir fuel p q1 st1 found).map (fun r => (r.1.fs, r.1.ns, r.2)) =
      (walkDir fuel p q2 st2 found).map (fun r => (r.1.fs, r.1.ns, r.2))) ∧
    (∀ p ds q1 q2 st1 st2 found, st1.fs = st2.fs → st1.ns = st2.ns →
      (walkDirs fuel p ds q1 st1 found).map (fun r => (r.1.fs, r.1.ns, r.2)) =
      (walkDirs fuel p ds q2 st2 found).map (fun r => (r.1.fs, r.1.ns, r.2))) ∧
    (∀ p fl q1 q2 st1 st2, st1.fs = st2.fs → st1.ns = st2.ns →
      (processFiles fuel p fl q1 st1).map (fun st => (st.fs, st.ns)) =
      (processFiles fuel p fl q2 st2).map (fun st => (st.fs, st.ns))) ∧
    (∀ p f q1 q2 st1 st2, st1.fs = st2.fs → st1.ns = st2.ns →
      (processFile fuel p f q1 st1).map (fun st => (st.fs, st.ns)) =
      (processFile fuel p f q2 st2).map (fun st => (st.fs, st.ns))) := by
  intro fuel
  induction fuel with
  | zero =>
    refine ⟨?_, ?_, ?_, ?_, ?_⟩ <;> intros <;> rfl
  | succ fuel ih =>
    obtain ⟨ihA, ihW, ihWs, ihPF, ihP⟩ := ih
    refine ⟨?_, ?_, ?_, ?_, ?_⟩
    · -- loadInputsAux
      intro p q1 q2 st1 st2 hfs hns
      have hw := ihW p q1 q2 st1 st2 false hfs hns
      simp only [loadInputsAux]
      cases h1 : walkDir fuel p q1 st1 false with
      | none =>
        cases h2 : walkDir fuel p q2 st2 false with
        | none => rfl
        | some r2 => rw [h1, h2] at hw; simp at hw
      | some r1 =>
        cases h2 : walkDir fuel p q2 st2 false with
        | none => rw [h1, h2] at hw; simp at hw
        | some r2 =>
          rw [h1, h2] at hw
          simp at hw
          simp [hw.1, hw.2.1]
    · -- walkDir
      intro p q1 q2 st1 st2 found hfs hns
      simp only [walkDir, hfs]
      cases hg : (Node.dir st2.fs).getPath p with
      | none => simp [hfs, hns]
      | some nd =>
        cases nd with
        | file c => simp [hfs, hns]
        | zipf ms => simp [hfs, hns]
        | dir es =>
          have hpf := ihPF p es.fileNames q1 q2 st1 st2 hfs hns
          cases h1 : processFiles fuel p es.fileNames q1 st1 with
          | none =>
            cases h2 : processFiles fuel p es.fileNames q2 st2 with
            | none => simp [h1, h2]
            | some r2 => rw [h1, h2] at hpf; simp at hpf
          | some r1 =>
            cases h2 : processFiles fuel p es.fileNames q2 st2 with
            | none => rw [h1, h2] at hpf; simp at hpf
            | some r2 =>
              rw [h1, h2] at hpf
              simp at hpf
              simp only [h1, h2]
              exact ihWs p es.dirNames q1 q2 r1 r2 _ hpf.1 hpf.2
    · -- walkDirs
      intro p ds q1 q2 st1 st2 found hfs hns
      cases ds with
      | nil => simp [walkDirs, hfs, hns]
      | cons n rest =>
        simp only [walkDirs]
        have hw := ihW (p ++ [n]) q1 q2 st1 st2 found hfs hns
        cases h1 : walkDir fuel (p ++ [n]) q1 st1 found with
        | none =>
          cases h2 : walkDir fuel (p ++ [n]) q2 st2 found with
          | none => rfl
          | some r2 => rw [h1, h2] at hw; simp at hw
        | some r1 =>
          cases h2 : walkDir fuel (p ++ [n]) q2 st2 found with
          | none => rw [h1, h2] at hw; simp at hw
          | some r2 =>
            rw [h1, h2] at hw
            simp at hw
            have h3 := ihWs p rest q1 q2 r1.1 r2.1 r1.2 hw.1 hw.2.1
            have h4 : walkDirs fuel p rest q2 r2.1 r1.2 =
                walkDirs fuel p rest q2 r2.1 r2.2 := by rw [hw.2.2]
            rw [h4] at h3
            exact h3
    · -- processFiles
      intro p fl q1 q2 st1 st2 hfs hns
      cases fl with
      | nil => simp [processFiles, hfs, hns]
      | cons f rest =>
        simp only [processFiles]
        have hp := ihP p f q1 q2 st1 st2 hfs hns
        cases h1 : processFile fuel p f q1 st1 with
        | none =>
          cases h2 : processFile fuel p f q2 st2 with
          | none => rfl
          | some r2 => rw [h1, h2] at hp; simp at hp
        | some r1 =>
          cases h2 : processFile fuel p f q2 st2 with
          | none => rw [h1, h2] at hp; simp at hp
          | some r2 =>
            rw [h1, h2] at hp
            simp at hp
            exact ihPF p rest q1 q2 r1 r2 hp.1 hp.2
    · -- processFile
      intro p f q1 q2 st1 st2 hfs hns
      simp only [processFile, hfs]
      by_cases hz : pyEndsWith f ".zip"
      · simp only [hz, if_true]
        cases hg : (Node.dir st2.fs).getPath (p ++ [f]) with
        | none => rfl
        | some nd =>
          cases nd with
          | file c => rfl
          | dir es => rfl
          | zipf ms =>
            cases hms : ms.isNil with
            | true =>
              simp only [hms, if_true]
              exact ihA (p ++ [(splitext f).1]) q1 q2
                { st1 with fs := st2.fs } { st2 with fs := st2.fs } rfl hns
            | false =>
              simp only [hms, Bool.false_eq_true, if_false]
              cases hu : updateAt st2.fs p (splitext f).1 ms with
              | none => rfl
              | some fs1 =>
                exact ihA (p ++ [(splitext f).1]) q1 q2
                  { st1 with fs := fs1 } { st2 with fs := fs1 } rfl hns
      · simp only [hz, Bool.false_eq_true, if_false]
        cases hr : file_loaders_get (splitext f).2 with
        | none => simp [hr, hfs, hns]
        | some tag =>
          simp only [hr]
          cases hg : (Node.dir st2.fs).getPath (p ++ [f]) with
          | none => simp [hg]
          | some nd =>
            simp only [hg]
            cases hv : loadVal tag (joinPath p f) nd with
            | none => simp [hv]
            | some v => simp [hv, hfs, hns, nsSet]

/-- C10: the quiet flag affects only console output — for every fuel, input
directory and initial scope, `load_inputs` with `quiet=True` and with
`quiet=False` succeeds identically and produces identical final filesystem
and scope contents. -/
theorem c10_quiet_does_not_affect_scope (fuel : Nat) (input_dir : Entries)
    (scope : Ns) :
    (load_inputs fuel input_dir scope true).map (fun st => (st.fs, st.ns)) =
    (load_inputs fuel input_dir scope false).map (fun st => (st.fs, st.ns)) :=
  (quiet_rel fuel).1 [] true false ⟨input_dir, scope, []⟩ ⟨input_dir, scope, []⟩
    rfl rfl

/-! ## Structural lemmas used by the `load_inputs` invariants -/

theorem list_any_congr {α : Type} {l : List α} {f g : α → Bool}
    (h : ∀ x ∈ l, f x = g x) : l.any f = l.any g := by
  induction l with
  | nil => rfl
  | cons a rest ih =>
    simp only [List.any_cons]
    rw [h a (List.mem_cons_self a rest),
      ih (fun x hx => h x (List.mem_cons_of_mem a hx))]

theorem getPath_append (nd : Node) (p q : List String) :
    nd.getPath (p ++ q) = (nd.getPath p).bind (fun x => x.getPath q) := by
  induction p generalizing nd with
  | nil => simp [Node.getPath]
  | cons n rest ih =>
    cases nd with
    | file c => simp [Node.getPath]
    | zipf ms => simp [Node.getPath]
    | dir es =>
      cases hl : es.lookup n with
      | none => simp [Node.getPath, hl]
      | some nd2 =>
        simp only [List.cons_append, Node.getPath, hl]
        exact ih nd2

theorem getPath_child {fs : Entries} {p : List String} {es : Entries}
    (hg : (Node.dir fs).getPath p = some (.dir es)) (n : String) :
    (Node.dir fs).getPath (p ++ [n]) = es.lookup n := by
  rw [getPath_append, hg]
  cases hl : es.lookup n with
  | none => simp [Node.getPath, hl]
  | some nd => simp [Node.getPath, hl]

theorem lookup_noZip : ∀ {es : Entries} {n : String} {nd : Node},
    noZipE es = true → es.lookup n = some nd → noZipN nd = true
  | .nil, n, nd => by
    intro _ hl
    simp [Entries.lookup] at hl
  | .cons m x rest, n, nd => by
    intro h hl
    rw [noZipE] at h
    simp only [Bool.and_eq_true] at h
    rw [Entries.lookup] at hl
    by_cases hm : m = n
    · rw [if_pos hm] at hl
      exact (Option.some.inj hl) ▸ h.1.2
    · rw [if_neg hm] at hl
      exact lookup_noZip h.2 hl

theorem lookup_allUnreg : ∀ {es : Entries} {n : String} {nd : Node},
    allUnregE es = true → es.lookup n = some nd → allUnregN nd = true
  | .nil, n, nd => by
    intro _ hl
    simp [Entries.lookup] at hl
  | .cons m x rest, n, nd => by
    intro h hl
    rw [Entries.lookup] at hl
    by_cases hm : m = n
    · rw [if_pos hm] at hl
      obtain rfl : x = nd := Option.some.inj hl
      cases x with
      | dir es =>
        simp only [allUnregE, Bool.and_eq_true] at h
        exact h.1
      | file c => rfl
      | zipf ms => rfl
    · rw [if_neg hm] at hl
      cases x <;>
        (simp only [allUnregE, Bool.and_eq_true] at h
         exact lookup_allUnreg h.2 hl)

theorem lookup_uniq : ∀ {es : Entries} {n : String} {nd : Node},
    uniqE es = true → es.lookup n = some nd → uniqN nd = true
  | .nil, n, nd => by
    intro _ hl
    simp [Entries.lookup] at hl
  | .cons m x rest, n, nd => by
    intro h hl
    rw [uniqE] at h
    simp only [Bool.and_eq_true] at h
    rw [Entries.lookup] at hl
    by_cases hm : m = n
    · rw [if_pos hm] at hl
      exact (Option.some.inj hl) ▸ h.1.2
    · rw [if_neg hm] at hl
      exact lookup_uniq h.2 hl

theorem getPath_noZip {fs : Entries} {p : List String} {nd : Node}
    (h : noZipE fs = true) (hg : (Node.dir fs).getPath p = some nd) :
    noZipN nd = true := by
  induction p generalizing fs with
  | nil =>
    have : Node.dir fs = nd := Option.some.inj hg
    rw [← this]
    exact h
  | cons n rest ih =>
    rw [show (Node.dir fs).getPath (n :: rest) = (match fs.lookup n with
      | some nd2 => nd2.getPath rest
      | none => none) from rfl] at hg
    cases hl : fs.lookup n with
    | none => rw [hl] at hg; simp at hg
    | some nd2 =>
      rw [hl] at hg
      have h2 := lookup_noZip h hl
      cases nd2 with
      | file c => cases rest with
        | nil => simp [Node.getPath] at hg; rw [← hg]; rfl
        | cons a b => simp [Node.getPath] at hg
      | zipf ms => cases rest with
        | nil => simp [Node.getPath] at hg; rw [← hg]; rfl
        | cons a b => simp [Node.getPath] at hg
      | dir es2 => exact ih (h2 : noZipE es2 = true) hg

theorem getPath_allUnreg {fs : Entries} {p : List String} {nd : Node}
    (h : allUnregE fs = true) (hg : (Node.dir fs).getPath p = some nd) :
    allUnregN nd = true := by
  induction p generalizing fs with
  | nil =>
    have : Node.dir fs = nd := Option.some.inj hg
    rw [← this]
    exact h
  | cons n rest ih =>
    rw [show (Node.dir fs).getPath (n :: rest) = (match fs.lookup n with
      | some nd2 => nd2.getPath rest
      | none => none) from rfl] at hg
    cases hl : fs.lookup n with
    | none => rw [hl] at hg; simp at hg
    | some nd2 =>
      rw [hl] at hg
      have h2 := lookup_allUnreg h hl
      cases nd2 with
      | file c => cases rest with
        | nil => simp [Node.getPath] at hg; rw [← hg]; rfl
        | cons a b => simp [Node.getPath] at hg
      | zipf ms => cases rest with
        | nil => simp [Node.getPath] at hg; rw [← hg]; rfl
        | cons a b => simp [Node.getPath] at hg
      | dir es2 => exact ih (h2 : allUnregE es2 = true) hg

theorem getPath_uniq {fs : Entries} {p : List String} {nd : Node}
    (h : uniqE fs = true) (hg : (Node.dir fs).getPath p = some nd) :
    uniqN nd = true := by
  induction p generalizing fs with
  | nil =>
    have : Node.dir fs = nd := Option.some.inj hg
    rw [← this]
    exact h
  | cons n rest ih =>
    rw [show (Node.dir fs).getPath (n :: rest) = (match fs.lookup n with
      | some nd2 => nd2.getPath rest
      | none => none) from rfl] at hg
    cases hl : fs.lookup n with
    | none => rw [hl] at hg; simp at hg
    | some nd2 =>
      rw [hl] at hg
      have h2 := lookup_uniq h hl
      cases nd2 with
      | file c => cases rest with
        | nil => simp [Node.getPath] at hg; rw [← hg]; rfl
        | cons a b => simp [Node.getPath] at hg
      | zipf ms => cases rest with
        | nil => simp [Node.getPath] at hg; rw [← hg]; rfl
        | cons a b => simp [Node.getPath] at hg
      | dir es2 => exact ih (h2 : uniqE es2 = true) hg

theorem fileNames_noZip : ∀ {es : Entries} {f : String},
    noZipE es = true → f ∈ es.fileNames → pyEndsWith f ".zip" = false
  | .nil, f => by
    intro _ hm
    simp [Entries.fileNames] at hm
  | .cons n nd rest, f => by
    intro h hm
    rw [noZipE] at h
    simp only [Bool.and_eq_true] at h
    rw [Entries.fileNames] at hm
    rcases List.mem_append.mp hm with h1 | h1
    · by_cases hd : isDirN nd
      · rw [if_pos hd] at h1
        simp at h1
      · rw [if_neg hd] at h1
        simp only [List.mem_singleton] at h1
        subst h1
        simpa using h.1.1
    · exact fileNames_noZip h.2 h1

theorem fileNames_allUnreg : ∀ {es : Entries} {f : String},
    allUnregE es = true → f ∈ es.fileNames →
    file_loaders_get (splitext f).2 = none
  | .nil, f => by
    intro _ hm
    simp [Entries.fileNames] at hm
  | .cons n nd rest, f => by
    intro h hm
    rw [Entries.fileNames] at hm
    rcases List.mem_append.mp hm with h1 | h1
    · by_cases hd : isDirN nd
      · rw [if_pos hd] at h1
        simp at h1
      · rw [if_neg hd] at h1
        simp only [List.mem_singleton] at h1
        subst h1
        cases nd with
        | dir es2 => exact absurd rfl hd
        | file c =>
          simp only [allUnregE, Bool.and_eq_true] at h
          simpa using h.1
        | zipf ms =>
          simp only [allUnregE, Bool.and_eq_true] at h
          simpa using h.1
    · cases nd <;>
        (simp only [allUnregE, Bool.and_eq_true] at h
         exact fileNames_allUnreg h.2 h1)

theorem mem_dirNames_isSome : ∀ {es : Entries} {n : String},
    n ∈ es.dirNames → (es.lookup n).isSome = true
  | .nil, n => by
    intro hm
    simp [Entries.dirNames] at hm
  | .cons m nd rest, n => by
    intro hm
    rw [Entries.lookup]
    by_cases hmn : m = n
    · rw [if_pos hmn]
      rfl
    · rw [if_neg hmn]
      rw [Entries.dirNames] at hm
      rcases List.mem_append.mp hm with h1 | h1
      · by_cases hd : isDirN nd
        · rw [if_pos hd] at h1
          simp only [List.mem_singleton] at h1
          exact absurd h1.symm hmn
        · rw [if_neg hd] at h1
          simp at h1
      · exact mem_dirNames_isSome h1

theorem uniq_dirNames_lookup : ∀ {es : Entries} {n : String},
    uniqE es = true → n ∈ es.dirNames →
    ∃ es2, es.lookup n = some (.dir es2)
  | .nil, n => by
    intro _ hm
    simp [Entries.dirNames] at hm
  | .cons m nd rest, n => by
    intro h hm
    rw [uniqE] at h
    simp only [Bool.and_eq_true] at h
    rw [Entries.dirNames] at hm
    rcases List.mem_append.mp hm with h1 | h1
    · by_cases hd : isDirN nd
      · rw [if_pos hd] at h1
        simp only [List.mem_singleton] at h1
        subst h1
        cases nd with
        | dir es2 =>
          refine ⟨es2, ?_⟩
          rw [Entries.lookup, if_pos rfl]
        | file c => simp [isDirN] at hd
        | zipf ms => simp [isDirN] at hd
      · rw [if_neg hd] at h1
        simp at h1
    · have hne : m ≠ n := by
        intro he
        have := mem_dirNames_isSome h1
        rw [← he] at this
        rw [this] at h
        simp at h
      obtain ⟨es2, h2⟩ := uniq_dirNames_lookup h.2 h1
      exact ⟨es2, by rw [Entries.lookup, if_neg hne]; exact h2⟩

theorem hasFilesE_char : ∀ {es : Entries}, uniqE es = true →
    hasFilesE es = (!es.fileNames.isEmpty ||
      es.dirNames.any (fun n =>
        match es.lookup n with
        | some (.dir es2) => hasFilesE es2
        | _ => false))
  | .nil => by
    intro _
    rfl
  | .cons m nd rest => by
    intro h
    rw [uniqE] at h
    simp only [Bool.and_eq_true] at h
    have hcongr : rest.dirNames.any (fun n =>
        match (Entries.cons m nd rest).lookup n with
        | some (.dir es2) => hasFilesE es2
        | _ => false) =
        rest.dirNames.any (fun n =>
        match rest.lookup n with
        | some (.dir es2) => hasFilesE es2
        | _ => false) := by
      apply list_any_congr
      intro n hn
      have hne : m ≠ n := by
        intro he
        have := mem_dirNames_isSome hn
        rw [← he] at this
        rw [this] at h
        simp at h
      rw [Entries.lookup, if_neg hne]
    by_cases hd : isDirN nd
    · cases nd with
      | file c => simp [isDirN] at hd
      | zipf ms => simp [isDirN] at hd
      | dir es0 =>
        rw [hasFilesE]
        rw [show (Entries.cons m (.dir es0) rest).fileNames = rest.fileNames by
          rw [Entries.fileNames]; rfl]
        rw [show (Entries.cons m (.dir es0) rest).dirNames = m :: rest.dirNames by
          rw [Entries.dirNames]; rfl]
        rw [List.any_cons]
        rw [show (match (Entries.cons m (.dir es0) rest).lookup m with
          | some (.dir es2) => hasFilesE es2
          | _ => false) = hasFilesE es0 by
          rw [Entries.lookup, if_pos rfl]]
        rw [hcongr, hasFilesE_char h.2]
        rw [show hasFilesN (.dir es0) = hasFilesE es0 from rfl]
        cases hasFilesE es0 <;> cases rest.fileNames.isEmpty <;> simp
    · cases nd with
      | dir es0 => exact absurd rfl hd
      | file c =>
        rw [hasFilesE]
        rw [show (Entries.cons m (.file c) rest).fileNames = m :: rest.fileNames by
          rw [Entries.fileNames]; rfl]
        rw [show hasFilesN (.file c) = true from rfl]
        simp
      | zipf ms =>
        rw [hasFilesE]
        rw [show (Entries.cons m (.zipf ms) rest).fileNames = m :: rest.fileNames by
          rw [Entries.fileNames]; rfl]
        rw [show hasFilesN (.zipf ms) = true from rfl]
        simp

theorem hasFilesAt_def (fs : Entries) (q : List String) :
    hasFilesAt fs q = (match (Node.dir fs).getPath q with
      | some (.dir es) => hasFilesE es
      | _ => false) := rfl

/-! ## Invariants of a run on an archive-free tree

On trees with no ".zip"-suffixed names, one simultaneous fuel induction
shows the walk: (1) leaves the filesystem untouched, (2) never emits the
no-input-files message itself (only the end of `loadInputsAux` can), (3)
leaves the scope untouched when every file extension is unregistered, and
(4) computes `found_files` exactly as "some file exists under a scanned
directory" (for trees with unique entry names). -/

theorem noZip_inv : ∀ fuel : Nat,
    (∀ p quiet st found st2 found2, noZipE st.fs = true →
      walkDir fuel p quiet st found = some (st2, found2) →
      st2.fs = st.fs ∧
      (∀ m ∈ st2.out, m ∈ st.out ∨ m ≠ Msg.noInputFiles) ∧
      (allUnregE st.fs = true → st2.ns = st.ns) ∧
      (uniqE st.fs = true → found2 = (found || hasFilesAt st.fs p))) ∧
    (∀ p ds quiet st found st2 found2, noZipE st.fs = true →
      walkDirs fuel p ds quiet st found = some (st2, found2) →
      st2.fs = st.fs ∧
      (∀ m ∈ st2.out, m ∈ st.out ∨ m ≠ Msg.noInputFiles) ∧
      (allUnregE st.fs = true → st2.ns = st.ns) ∧
      (uniqE st.fs = true →
        found2 = (found || ds.any (fun n => hasFilesAt st.fs (p ++ [n]))))) ∧
    (∀ p fl quiet st st2,
      (∀ f ∈ fl, pyEndsWith f ".zip" = false) →
      processFiles fuel p fl quiet st = some st2 →
      st2.fs = st.fs ∧
      (∀ m ∈ st2.out, m ∈ st.out ∨ m ≠ Msg.noInputFiles) ∧
      ((∀ f ∈ fl, file_loaders_get (splitext f).2 = none) → st2.ns = st.ns)) ∧
    (∀ p f quiet st st2, pyEndsWith f ".zip" = false →
      processFile fuel p f quiet st = some st2 →
      st2.fs = st.fs ∧
      (∀ m ∈ st2.out, m ∈ st.out ∨ m ≠ Msg.noInputFiles) ∧
      (file_loaders_get (splitext f).2 = none → st2.ns = st.ns)) := by
  intro fuel
  induction fuel with
  | zero =>
    refine ⟨?_, ?_, ?_, ?_⟩ <;> (intros; simp_all [walkDir, walkDirs, processFiles, processFile])
  | succ fuel ih =>
    obtain ⟨ihW, ihWs, ihPF, ihP⟩ := ih
    refine ⟨?_, ?_, ?_, ?_⟩
    · -- walkDir
      intro p quiet st found st2 found2 hnz hw
      simp only [walkDir] at hw
      cases hg : (Node.dir st.fs).getPath p with
      | none =>
        simp only [hg] at hw
        obtain ⟨h1, h2⟩ := Prod.mk.injEq .. ▸ Option.some.inj hw
        subst h1; subst h2
        refine ⟨rfl, fun m hm => Or.inl hm, fun _ => rfl, fun _ => ?_⟩
        simp [hasFilesAt_def, hg]
      | some nd =>
        cases nd with
        | file c =>
          simp only [hg] at hw
          obtain ⟨h1, h2⟩ := Prod.mk.injEq .. ▸ Option.some.inj hw
          subst h1; subst h2
          refine ⟨rfl, fun m hm => Or.inl hm, fun _ => rfl, fun _ => ?_⟩
          simp [hasFilesAt_def, hg]
        | zipf ms =>
          simp only [hg] at hw
          obtain ⟨h1, h2⟩ := Prod.mk.injEq .. ▸ Option.some.inj hw
          subst h1; subst h2
          refine ⟨rfl, fun m hm => Or.inl hm, fun _ => rfl, fun _ => ?_⟩
          simp [hasFilesAt_def, hg]
        | dir es =>
          simp only [hg] at hw
          cases hpf : processFiles fuel p es.fileNames quiet st with
          | none => rw [hpf] at hw; simp at hw
          | some st1 =>
            rw [hpf] at hw
            have hes : noZipE es = true := getPath_noZip hnz hg
            have hzf : ∀ f ∈ es.fileNames, pyEndsWith f ".zip" = false :=
              fun f hf => fileNames_noZip hes hf
            obtain ⟨hfs1, hout1, hns1⟩ := ihPF p es.fileNames quiet st st1 hzf hpf
            obtain ⟨hfs2, hout2, hns2, hfound2⟩ :=
              ihWs p es.dirNames quiet st1 (found || !es.fileNames.isEmpty)
                st2 found2 (by rw [hfs1]; exact hnz) hw
            refine ⟨by rw [hfs2, hfs1], ?_, ?_, ?_⟩
            · intro m hm
              rcases hout2 m hm with h1 | h1
              · exact hout1 m h1
              · exact Or.inr h1
            · intro hall
              have hesu : allUnregE es = true := getPath_allUnreg hall hg
              have h1 := hns1 (fun f hf => fileNames_allUnreg hesu hf)
              have h2 := hns2 (by rw [hfs1]; exact hall)
              rw [h2, h1]
            · intro huniq
              have hfnd := hfound2 (by rw [hfs1]; exact huniq)
              rw [hfs1] at hfnd
              have hesq : uniqE es = true := getPath_uniq huniq hg
              have hconv : es.dirNames.any (fun n => hasFilesAt st.fs (p ++ [n])) =
                  es.dirNames.any (fun n =>
                    match es.lookup n with
                    | some (.dir es2) => hasFilesE es2
                    | _ => false) := by
                apply list_any_congr
                intro n hn
                rw [hasFilesAt_def, getPath_child hg n]
              have hroot : hasFilesAt st.fs p = hasFilesE es := by
                simp [hasFilesAt_def, hg]
              rw [hfnd, hconv, hroot, hasFilesE_char hesq, Bool.or_assoc]
    · -- walkDirs
      intro p ds quiet st found st2 found2 hnz hw
      cases ds with
      | nil =>
        simp only [walkDirs] at hw
        obtain ⟨h1, h2⟩ := Prod.mk.injEq .. ▸ Option.some.inj hw
        subst h1; subst h2
        exact ⟨rfl, fun m hm => Or.inl hm, fun _ => rfl, fun _ => by simp⟩
      | cons n rest =>
        simp only [walkDirs] at hw
        cases hw1 : walkDir fuel (p ++ [n]) quiet st found with
        | none => rw [hw1] at hw; simp at hw
        | some r1 =>
          rw [hw1] at hw
          obtain ⟨hfs1, hout1, hns1, hfound1⟩ :=
            ihW (p ++ [n]) quiet st found r1.1 r1.2 hnz hw1
          obtain ⟨hfs2, hout2, hns2, hfound2⟩ :=
            ihWs p rest quiet r1.1 r1.2 st2 found2 (by rw [hfs1]; exact hnz) hw
          refine ⟨by rw [hfs2, hfs1], ?_, ?_, ?_⟩
          · intro m hm
            rcases hout2 m hm with h1 | h1
            · exact hout1 m h1
            · exact Or.inr h1
          · intro hall
            rw [hns2 (by rw [hfs1]; exact hall), hns1 hall]
          · intro huniq
            have h1 := hfound1 huniq
            have h2 := hfound2 (by rw [hfs1]; exact huniq)
            rw [hfs1] at h2
            rw [h2, h1, List.any_cons, Bool.or_assoc]
    · -- processFiles
      intro p fl quiet st st2 hzf hw
      cases fl with
      | nil =>
        simp only [processFiles] at hw
        obtain rfl : st = st2 := Option.some.inj hw
        exact ⟨rfl, fun m hm => Or.inl hm, fun _ => rfl⟩
      | cons f rest =>
        simp only [processFiles] at hw
        cases hp1 : processFile fuel p f quiet st with
        | none => rw [hp1] at hw; simp at hw
        | some st1 =>
          rw [hp1] at hw
          obtain ⟨hfs1, hout1, hns1⟩ :=
            ihP p f quiet st st1 (hzf f (List.mem_cons_self f rest)) hp1
          obtain ⟨hfs2, hout2, hns2⟩ :=
            ihPF p rest quiet st1 st2
              (fun g hg => hzf g (List.mem_cons_of_mem f hg)) hw
          refine ⟨by rw [hfs2, hfs1], ?_, ?_⟩
          · intro m hm
            rcases hout2 m hm with h1 | h1
            · exact hout1 m h1
            · exact Or.inr h1
          · intro hall
            rw [hns2 (fun g hg => hall g (List.mem_cons_of_mem f hg)),
              hns1 (hall f (List.mem_cons_self f rest))]
    · -- processFile
      intro p f quiet st st2 hz hw
      simp only [processFile, hz, Bool.false_eq_true, if_false] at hw
      cases hr : file_loaders_get (splitext f).2 with
      | none =>
        simp only [hr] at hw
        obtain rfl : _ = st2 := Option.some.inj hw
        refine ⟨rfl, ?_, fun _ => rfl⟩
        intro m hm
        rcases List.mem_append.mp hm with h1 | h1
        · exact Or.inl h1
        · simp only [List.mem_singleton] at h1
          subst h1
          exact Or.inr (by simp)
      | some tag =>
        simp only [hr] at hw
        cases hgp : (Node.dir st.fs).getPath (p ++ [f]) with
        | none =>
          simp only [hgp] at hw
          exact Option.noConfusion hw
        | some nd =>
          simp only [hgp] at hw
          cases hv : loadVal tag (joinPath p f) nd with
          | none => rw [hv] at hw; simp at hw
          | some v =>
            rw [hv] at hw
            obtain rfl : _ = st2 := Option.some.inj hw
            refine ⟨rfl, ?_, ?_⟩
            · intro m hm
              rcases List.mem_append.mp hm with h1 | h1
              · exact Or.inl h1
              · by_cases hq : quiet
                · rw [if_pos hq] at h1; simp at h1
                · rw [if_neg hq] at h1
                  simp only [List.mem_singleton] at h1
                  subst h1
                  exact Or.inr (by simp)
            · exact fun hnone => Option.noConfusion hnone

/-- C4, amended: for archive-free trees (no ".zip"-suffixed names, unique
entry names) a successful `load_inputs` run with `quiet=False` emits the
no-input-files notice exactly when no file exists anywhere in the tree;
with archives the flag is not shared with recursive calls, which emit
their own notices (see the counterexample). -/
theorem c4_notice_iff_no_files (fuel : Nat) (root : Entries) (ns : Ns) (st : St)
    (hnz : noZipE root = true) (hu : uniqE root = true)
    (h : load_inputs fuel root ns false = some st) :
    Msg.noInputFiles ∈ st.out ↔ hasFilesE root = false := by
  rw [load_inputs] at h
  cases fuel with
  | zero => simp [loadInputsAux] at h
  | succ fuel =>
    simp only [loadInputsAux] at h
    cases hw : walkDir fuel [] false ⟨root, ns, []⟩ false with
    | none => rw [hw] at h; exact Option.noConfusion h
    | some r =>
      rw [hw] at h
      obtain rfl : _ = st := Option.some.inj h
      obtain ⟨hfs, hout, _, hfound⟩ :=
        (noZip_inv fuel).1 [] false ⟨root, ns, []⟩ false r.1 r.2 hnz hw
      have hfnd := hfound hu
      have hroot : hasFilesAt root [] = hasFilesE root := rfl
      rw [hroot, Bool.false_or] at hfnd
      have hnotin : Msg.noInputFiles ∉ r.1.out := by
        intro hm
        rcases hout Msg.noInputFiles hm with h1 | h1
        · simp at h1
        · exact h1 rfl
      constructor
      · intro hm
        rcases List.mem_append.mp hm with h1 | h1
        · exact absurd h1 hnotin
        · by_cases hr2 : r.2
          · rw [if_neg (by simp [hr2])] at h1
            simp at h1
          · rw [← hfnd]
            simp [hr2]
      · intro hno
        apply List.mem_append_right
        rw [hfnd, hno]
        simp

/-- Witness for C4 on the empty input directory. -/
theorem c4_notice_iff_no_files_witness :
    Msg.noInputFiles ∈ [Msg.noInputFiles] ↔ hasFilesE .nil = false :=
  c4_notice_iff_no_files 5 .nil emptyNs ⟨.nil, emptyNs, [Msg.noInputFiles]⟩
    (by decide) (by decide) (by rfl)

/-- C8, amended: unsupported-extension files still set the found-files
flag — for every archive-free tree (no ".zip"-suffixed names, unique
entry names) containing at least one file, all of whose files have
unregistered extensions, a successful `load_inputs` run with
`quiet=False` emits no no-input-files notice and adds no namespace entry;
a file named like ".zip" instead takes the archive branch (see the
counterexample). -/
theorem c8_unsupported_sets_found_flag (fuel : Nat) (root : Entries)
    (ns : Ns) (st : St)
    (hnz : noZipE root = true) (hu : uniqE root = true)
    (hall : allUnregE root = true) (hf : hasFilesE root = true)
    (h : load_inputs fuel root ns false = some st) :
    Msg.noInputFiles ∉ st.out ∧ st.ns = ns := by
  rw [load_inputs] at h
  cases fuel with
  | zero => simp [loadInputsAux] at h
  | succ fuel =>
    simp only [loadInputsAux] at h
    cases hw : walkDir fuel [] false ⟨root, ns, []⟩ false with
    | none => rw [hw] at h; exact Option.noConfusion h
    | some r =>
      rw [hw] at h
      obtain rfl : _ = st := Option.some.inj h
      obtain ⟨hfs, hout, hns, hfound⟩ :=
        (noZip_inv fuel).1 [] false ⟨root, ns, []⟩ false r.1 r.2 hnz hw
      have hfnd := hfound hu
      have hroot : hasFilesAt root [] = hasFilesE root := rfl
      rw [hroot, Bool.false_or, hf] at hfnd
      constructor
      · intro hm
        rcases List.mem_append.mp hm with h1 | h1
        · rcases hout Msg.noInputFiles h1 with h2 | h2
          · simp at h2
          · exact h2 rfl
        · rw [if_neg (by simp [hfnd])] at h1
          simp at h1
      · exact hns hall

/-- Witness for C8 on a directory holding one ".xyz" file. -/
theorem c8_unsupported_sets_found_flag_witness :
    Msg.noInputFiles ∉ [Msg.unsupported ".xyz"] ∧
      (St.mk (E [("a.xyz", .file "q")]) emptyNs [Msg.unsupported ".xyz"]).ns =
        emptyNs :=
  c8_unsupported_sets_found_flag 5
    (E [("a.xyz", .file "q")]) emptyNs
    ⟨E [("a.xyz", .file "q")], emptyNs, [Msg.unsupported ".xyz"]⟩
    (by decide) (by decide) (by decide) (by decide) (by rfl)

theorem ns_rel_comp {a1 a2 b1 b2 c1 c2 : Ns}
    (hA : ∀ k, b1 k = b2 k ∨ (b1 k = a1 k ∧ b2 k = a2 k))
    (hB : ∀ k, c1 k = c2 k ∨ (c1 k = b1 k ∧ c2 k = b2 k)) :
    ∀ k, c1 k = c2 k ∨ (c1 k = a1 k ∧ c2 k = a2 k) := by
  intro k
  rcases hB k with h1 | ⟨e1, e2⟩
  · exact Or.inl h1
  · rcases hA k with h2 | ⟨f1, f2⟩
    · exact Or.inl (e1.trans (h2.trans e2.symm))
    · exact Or.inr ⟨e1.trans f1, e2.trans f2⟩

theorem nsSet_rel (a b : Ns) (key : String) (v : Value) (k : String) :
    nsSet a key v k = nsSet b key v k ∨
      (nsSet a key v k = a k ∧ nsSet b key v k = b k) := by
  by_cases hk : k = key
  · exact Or.inl (by simp [nsSet, hk])
  · exact Or.inr ⟨by simp [nsSet, hk], by simp [nsSet, hk]⟩

/-! ## Two runs over the same archive-free filesystem

Two runs of the walk over the same (constant) filesystem from different
scopes perform the same writes: at every key the two final scopes either
agree or both kept their initial value. This drives the idempotence
result for C3. -/

theorem twoRun_rel : ∀ fuel : Nat,
    (∀ p quiet st1 st2 found r1 r2, st1.fs = st2.fs → noZipE st1.fs = true →
      walkDir fuel p quiet st1 found = some r1 →
      walkDir fuel p quiet st2 found = some r2 →
      r1.2 = r2.2 ∧
      (∀ k, r1.1.ns k = r2.1.ns k ∨
        (r1.1.ns k = st1.ns k ∧ r2.1.ns k = st2.ns k))) ∧
    (∀ p ds quiet st1 st2 found r1 r2, st1.fs = st2.fs → noZipE st1.fs = true →
      walkDirs fuel p ds quiet st1 found = some r1 →
      walkDirs fuel p ds quiet st2 found = some r2 →
      r1.2 = r2.2 ∧
      (∀ k, r1.1.ns k = r2.1.ns k ∨
        (r1.1.ns k = st1.ns k ∧ r2.1.ns k = st2.ns k))) ∧
    (∀ p fl quiet st1 st2 s1 s2, st1.fs = st2.fs →
      (∀ f ∈ fl, pyEndsWith f ".zip" = false) →
      processFiles fuel p fl quiet st1 = some s1 →
      processFiles fuel p fl quiet st2 = some s2 →
      (∀ k, s1.ns k = s2.ns k ∨ (s1.ns k = st1.ns k ∧ s2.ns k = st2.ns k))) ∧
    (∀ p f quiet st1 st2 s1 s2, st1.fs = st2.fs →
      pyEndsWith f ".zip" = false →
      processFile fuel p f quiet st1 = some s1 →
      processFile fuel p f quiet st2 = some s2 →
      (∀ k, s1.ns k = s2.ns k ∨ (s1.ns k = st1.ns k ∧ s2.ns k = st2.ns k))) := by
  intro fuel
  induction fuel with
  | zero =>
    refine ⟨?_, ?_, ?_, ?_⟩ <;>
      (intros; simp_all [walkDir, walkDirs, processFiles, processFile])
  | succ fuel ih =>
    obtain ⟨ihW, ihWs, ihPF, ihP⟩ := ih
    refine ⟨?_, ?_, ?_, ?_⟩
    · -- walkDir
      intro p quiet st1 st2 found r1 r2 hfs hnz hw1 hw2
      simp only [walkDir] at hw1 hw2
      rw [hfs] at hw1
      cases hg : (Node.dir st2.fs).getPath p with
      | none =>
        simp only [hg] at hw1 hw2
        injection hw1 with h1
        injection hw2 with h2
        subst h1; subst h2
        exact ⟨rfl, fun k => Or.inr ⟨rfl, rfl⟩⟩
      | some nd =>
        cases nd with
        | file c =>
          simp only [hg] at hw1 hw2
          injection hw1 with h1
          injection hw2 with h2
          subst h1; subst h2
          exact ⟨rfl, fun k => Or.inr ⟨rfl, rfl⟩⟩
        | zipf ms =>
          simp only [hg] at hw1 hw2
          injection hw1 with h1
          injection hw2 with h2
          subst h1; subst h2
          exact ⟨rfl, fun k => Or.inr ⟨rfl, rfl⟩⟩
        | dir es =>
          simp only [hg] at hw1 hw2
          have hnz2 : noZipE st2.fs = true := by rw [← hfs]; exact hnz
          have hes : noZipE es = true := getPath_noZip hnz2 hg
          have hzf : ∀ f ∈ es.fileNames, pyEndsWith f ".zip" = false :=
            fun f hf => fileNames_noZip hes hf
          cases hp1 : processFiles fuel p es.fileNames quiet st1 with
          | none => simp [hp1] at hw1
          | some s1 =>
            cases hp2 : processFiles fuel p es.fileNames quiet st2 with
            | none => simp [hp2] at hw2
            | some s2 =>
              simp only [hp1] at hw1
              simp only [hp2] at hw2
              have hA := ihPF p es.fileNames quiet st1 st2 s1 s2 hfs hzf hp1 hp2
              obtain ⟨hfr1, _, _⟩ :=
                (noZip_inv fuel).2.2.1 p es.fileNames quiet st1 s1 hzf hp1
              obtain ⟨hfr2, _, _⟩ :=
                (noZip_inv fuel).2.2.1 p es.fileNames quiet st2 s2 hzf hp2
              have hB := ihWs p es.dirNames quiet s1 s2
                (found || !es.fileNames.isEmpty) r1 r2
                (by rw [hfr1, hfr2, hfs])
                (by rw [hfr1]; exact hnz) hw1 hw2
              exact ⟨hB.1, ns_rel_comp hA hB.2⟩
    · -- walkDirs
      intro p ds quiet st1 st2 found r1 r2 hfs hnz hw1 hw2
      cases ds with
      | nil =>
        simp only [walkDirs] at hw1 hw2
        injection hw1 with h1
        injection hw2 with h2
        subst h1; subst h2
        exact ⟨rfl, fun k => Or.inr ⟨rfl, rfl⟩⟩
      | cons n rest =>
        simp only [walkDirs] at hw1 hw2
        cases hq1 : walkDir fuel (p ++ [n]) quiet st1 found with
        | none => simp [hq1] at hw1
        | some u1 =>
          cases hq2 : walkDir fuel (p ++ [n]) quiet st2 found with
          | none => simp [hq2] at hw2
          | some u2 =>
            simp only [hq1] at hw1
            simp only [hq2] at hw2
            have hA := ihW (p ++ [n]) quiet st1 st2 found u1 u2 hfs hnz hq1 hq2
            obtain ⟨hfr1, _, _, _⟩ :=
              (noZip_inv fuel).1 (p ++ [n]) quiet st1 found u1.1 u1.2 hnz hq1
            obtain ⟨hfr2, _, _, _⟩ :=
              (noZip_inv fuel).1 (p ++ [n]) quiet st2 found u2.1 u2.2
                (by rw [← hfs]; exact hnz) hq2
            rw [← hA.1] at hw2
            have hB := ihWs p rest quiet u1.1 u2.1 u1.2 r1 r2
              (by rw [hfr1, hfr2, hfs])
              (by rw [hfr1]; exact hnz) hw1 hw2
            exact ⟨hB.1, ns_rel_comp hA.2 hB.2⟩
    · -- processFiles
      intro p fl quiet st1 st2 s1 s2 hfs hzf hw1 hw2
      cases fl with
      | nil =>
        simp only [processFiles] at hw1 hw2
        obtain rfl : st1 = s1 := Option.some.inj hw1
        obtain rfl : st2 = s2 := Option.some.inj hw2
        exact fun k => Or.inr ⟨rfl, rfl⟩
      | cons f rest =>
        simp only [processFiles] at hw1 hw2
        cases hq1 : processFile fuel p f quiet st1 with
        | none => simp [hq1] at hw1
        | some u1 =>
          cases hq2 : processFile fuel p f quiet st2 with
          | none => simp [hq2] at hw2
          | some u2 =>
            simp only [hq1] at hw1
            simp only [hq2] at hw2
            have hzf1 := hzf f (List.mem_cons_self f rest)
            have hA := ihP p f quiet st1 st2 u1 u2 hfs hzf1 hq1 hq2
            obtain ⟨hfr1, _, _⟩ :=
              (noZip_inv fuel).2.2.2 p f quiet st1 u1 hzf1 hq1
            obtain ⟨hfr2, _, _⟩ :=
              (noZip_inv fuel).2.2.2 p f quiet st2 u2 hzf1 hq2
            have hB := ihPF p rest quiet u1 u2 s1 s2
              (by rw [hfr1, hfr2, hfs])
              (fun g hg => hzf g (List.mem_cons_of_mem f hg)) hw1 hw2
            exact ns_rel_comp hA hB
    · -- processFile
      intro p f quiet st1 st2 s1 s2 hfs hz hw1 hw2
      simp only [processFile, hz, Bool.false_eq_true, if_false] at hw1 hw2
      rw [hfs] at hw1
      cases hr : file_loaders_get (splitext f).2 with
      | none =>
        simp only [hr] at hw1 hw2
        obtain rfl : _ = s1 := Option.some.inj hw1
        obtain rfl : _ = s2 := Option.some.inj hw2
        exact fun k => Or.inr ⟨rfl, rfl⟩
      | some tag =>
        simp only [hr] at hw1 hw2
        cases hgp : (Node.dir st2.fs).getPath (p ++ [f]) with
        | none => simp [hgp] at hw1
        | some nd =>
          simp only [hgp] at hw1 hw2
          cases hv : loadVal tag (joinPath p f) nd with
          | none =>
            rw [hv] at hw1
            exact absurd hw1 (by simp)
          | some v =>
            simp only [hv] at hw1 hw2
            obtain rfl : _ = s1 := Option.some.inj hw1
            obtain rfl : _ = s2 := Option.some.inj hw2
            exact fun k => nsSet_rel st1.ns st2.ns _ v k

/-- C3, amended: on archive-free input trees (no ".zip"-suffixed names)
`load_inputs` is idempotent — a second run on the same directory with the
namespace left by the first changes neither the namespace nor the
filesystem. With archives the second run revisits the materialised
extraction directory at a different walk position, which can change a
colliding key (see the counterexample). -/
theorem c3_idempotent_without_archives (fuel : Nat) (root : Entries)
    (ns : Ns) (quiet : Bool) (st1 st2 : St)
    (hnz : noZipE root = true)
    (h1 : load_inputs fuel root ns quiet = some st1)
    (h2 : load_inputs fuel st1.fs st1.ns quiet = some st2) :
    st2.ns = st1.ns ∧ st2.fs = st1.fs := by
  rw [load_inputs] at h1 h2
  cases fuel with
  | zero => simp [loadInputsAux] at h1
  | succ fuel =>
    simp only [loadInputsAux] at h1 h2
    cases hw1 : walkDir fuel [] quiet ⟨root, ns, []⟩ false with
    | none => rw [hw1] at h1; exact Option.noConfusion h1
    | some r1 =>
      rw [hw1] at h1
      obtain rfl : _ = st1 := Option.some.inj h1
      obtain ⟨hfr1, _, _, _⟩ :=
        (noZip_inv fuel).1 [] quiet ⟨root, ns, []⟩ false r1.1 r1.2 hnz hw1
      cases hw2 : walkDir fuel [] quiet ⟨r1.1.fs, r1.1.ns, []⟩ false with
      | none => rw [hw2] at h2; exact Option.noConfusion h2
      | some r2 =>
        rw [hw2] at h2
        obtain rfl : _ = st2 := Option.some.inj h2
        obtain ⟨hfr2, _, _, _⟩ :=
          (noZip_inv fuel).1 [] quiet ⟨r1.1.fs, r1.1.ns, []⟩ false r2.1 r2.2
            (by show noZipE r1.1.fs = true; rw [hfr1]; exact hnz) hw2
        have hrel := (twoRun_rel fuel).1 [] quiet ⟨root, ns, []⟩
          ⟨r1.1.fs, r1.1.ns, []⟩ false r1 r2
          (by show root = r1.1.fs; rw [hfr1]) hnz hw1 hw2
        constructor
        · funext k
          rcases hrel.2 k with hk | ⟨_, hk⟩
          · exact hk.symm
          · exact hk
        · show r2.1.fs = r1.1.fs
          rw [hfr2]

/-- Witness for C3: two runs on an archive-free directory holding one CSV
file. -/
theorem c3_idempotent_without_archives_witness :
    (St.mk (E [("data.csv", .file "v")])
        (nsSet (nsSet emptyNs "df_data" (.dataFrame "v")) "df_data" (.dataFrame "v"))
        []).ns =
      (St.mk (E [("data.csv", .file "v")])
        (nsSet emptyNs "df_data" (.dataFrame "v")) []).ns ∧
    (St.mk (E [("data.csv", .file "v")])
        (nsSet (nsSet emptyNs "df_data" (.dataFrame "v")) "df_data" (.dataFrame "v"))
        []).fs =
      (St.mk (E [("data.csv", .file "v")])
        (nsSet emptyNs "df_data" (.dataFrame "v")) []).fs :=
  c3_idempotent_without_archives 10 (E [("data.csv", .file "v")]) emptyNs true
    (St.mk (E [("data.csv", .file "v")]) (nsSet emptyNs "df_data" (.dataFrame "v")) [])
    (St.mk (E [("data.csv", .file "v")])
      (nsSet (nsSet emptyNs "df_data" (.dataFrame "v")) "df_data" (.dataFrame "v")) [])
    (by decide) (by rfl) (by rfl)

/-! ## Preservation of existing files by extraction (claim C9) -/

theorem getPath_cons (es : Entries) (m : String) (π : List String) :
    (Node.dir es).getPath (m :: π) =
      (match es.lookup m with
       | some x => x.getPath π
       | none => none) := rfl

theorem nodePres_refl (a : Node) : NodePres a a :=
  fun _ => ⟨id, id⟩

theorem nodePres_trans {a b c : Node} (h1 : NodePres a b) (h2 : NodePres b c) :
    NodePres a c :=
  fun π => ⟨fun hf => (h2 π).1 ((h1 π).1 hf), fun hd => (h2 π).2 ((h1 π).2 hd)⟩

theorem nodePres_files {a b : Node} (ha : isDirN a = false)
    (hb : isDirN b = false) : NodePres a b := by
  intro π
  cases π with
  | nil =>
    constructor
    · intro _
      simp [isFileP, Node.getPath, hb]
    · intro hd
      simp [isDirP, Node.getPath, ha] at hd
  | cons m π2 =>
    have hA : a.getPath (m :: π2) = none := by
      cases a with
      | dir es => simp [isDirN] at ha
      | file c => rfl
      | zipf ms => rfl
    constructor
    · intro hf
      rw [hA] at hf
      simp [isFileP] at hf
    · intro hd
      rw [hA] at hd
      simp [isDirP] at hd

theorem lookup_appendE : ∀ (es : Entries) (n : String) (nd : Node) (m : String),
    (es.appendE n nd).lookup m =
      (match es.lookup m with
       | some x => some x
       | none => if n = m then some nd else none)
  | .nil, n, nd, m => by
    simp [Entries.appendE, Entries.lookup]
  | .cons a x rest, n, nd, m => by
    rw [Entries.appendE]
    rw [Entries.lookup, Entries.lookup]
    by_cases ham : a = m
    · rw [if_pos ham, if_pos ham]
    · rw [if_neg ham, if_neg ham]
      exact lookup_appendE rest n nd m

theorem lookup_replaceE : ∀ (es : Entries) (n : String) (x : Node) (m : String),
    (es.replaceE n x).lookup m =
      (if n = m then
        (match es.lookup n with
         | some _ => some x
         | none => none)
       else es.lookup m)
  | .nil, n, x, m => by
    simp [Entries.replaceE, Entries.lookup]
  | .cons a y rest, n, x, m => by
    rw [Entries.replaceE]
    by_cases han : a = n
    · rw [if_pos han]
      subst han
      by_cases ham : a = m
      · subst ham
        simp [Entries.lookup]
      · simp [Entries.lookup, ham]
    · rw [if_neg han]
      by_cases ham : a = m
      · subst ham
        have hna : ¬n = a := fun h => han h.symm
        simp [Entries.lookup, hna]
      · simp only [Entries.lookup, if_neg han, if_neg ham]
        rw [lookup_replaceE rest n x m]

theorem entriesPres_appendE {es : Entries} {n : String} {nd : Node} :
    EntriesPres es (es.appendE n nd) := by
  intro π
  cases π with
  | nil =>
    constructor
    · intro hf
      simp [isFileP, Node.getPath, isDirN] at hf
    · intro _
      simp [isDirP, Node.getPath, isDirN]
  | cons m π2 =>
    rw [getPath_cons, getPath_cons, lookup_appendE]
    cases hm : es.lookup m with
    | none =>
      constructor <;> (intro hbad; simp [isFileP, isDirP] at hbad)
    | some x =>
      exact ⟨id, id⟩

theorem entriesPres_replaceE {es : Entries} {n : String} {oldN x : Node}
    (h : es.lookup n = some oldN) (hp : NodePres oldN x) :
    EntriesPres es (es.replaceE n x) := by
  intro π
  cases π with
  | nil =>
    constructor
    · intro hf
      simp [isFileP, Node.getPath, isDirN] at hf
    · intro _
      simp [isDirP, Node.getPath, isDirN]
  | cons m π2 =>
    rw [getPath_cons, getPath_cons, lookup_replaceE]
    by_cases hnm : n = m
    · rw [if_pos hnm, h]
      subst hnm
      rw [h]
      exact hp π2
    · rw [if_neg hnm]
      cases es.lookup m with
      | none =>
        constructor <;> (intro hbad; simp [isFileP, isDirP] at hbad)
      | some y => exact ⟨id, id⟩

mutual
theorem mergeNode_pres : ∀ (a b c : Node), mergeNode a b = some c → NodePres a c
  | .dir old, .dir inc, c => by
    intro h
    rw [mergeNode] at h
    cases hme : mergeEntries old inc with
    | none => rw [hme] at h; exact Option.noConfusion h
    | some new =>
      rw [hme] at h
      obtain rfl : Node.dir new = c := Option.some.inj h
      exact mergeEntries_pres old inc new hme
  | .dir old, .file s, c => by
    intro h
    exact Option.noConfusion h
  | .dir old, .zipf ms, c => by
    intro h
    exact Option.noConfusion h
  | .file s, .dir inc, c => by
    intro h
    exact Option.noConfusion h
  | .zipf ms, .dir inc, c => by
    intro h
    exact Option.noConfusion h
  | .file s, .file t, c => by
    intro h
    obtain rfl : Node.file t = c := Option.some.inj h
    exact nodePres_files rfl rfl
  | .file s, .zipf ms, c => by
    intro h
    obtain rfl : Node.zipf ms = c := Option.some.inj h
    exact nodePres_files rfl rfl
  | .zipf ms, .file t, c => by
    intro h
    obtain rfl : Node.file t = c := Option.some.inj h
    exact nodePres_files rfl rfl
  | .zipf ms, .zipf ms2, c => by
    intro h
    obtain rfl : Node.zipf ms2 = c := Option.some.inj h
    exact nodePres_files rfl rfl
theorem mergeEntries_pres : ∀ (old inc new : Entries),
    mergeEntries old inc = some new → EntriesPres old new
  | old, .nil, new => by
    intro h
    rw [mergeEntries] at h
    obtain rfl : old = new := Option.some.inj h
    exact nodePres_refl _
  | old, .cons n nd rest, new => by
    intro h
    rw [mergeEntries] at h
    cases hl : old.lookup n with
    | none =>
      simp only [hl] at h
      exact nodePres_trans entriesPres_appendE
        (mergeEntries_pres (old.appendE n nd) rest new h)
    | some oldN =>
      simp only [hl] at h
      cases hm : mergeNode oldN nd with
      | none => simp [hm] at h
      | some merged =>
        simp only [hm] at h
        exact nodePres_trans
          (entriesPres_replaceE hl (mergeNode_pres oldN nd merged hm))
          (mergeEntries_pres (old.replaceE n merged) rest new h)
end

theorem updateAt_pres : ∀ (es : Entries) (p : List String) (t : String)
    (ms : Entries) (es2 : Entries), updateAt es p t ms = some es2 →
    EntriesPres es es2
  | es, [], t, ms, es2 => by
    intro h
    rw [updateAt] at h
    exact mergeEntries_pres _ _ _ h
  | es, n :: rest, t, ms, es2 => by
    intro h
    rw [updateAt] at h
    cases hl : es.lookup n with
    | none => simp [hl] at h
    | some nd =>
      cases nd with
      | file c => simp [hl] at h
      | zipf ms2 => simp [hl] at h
      | dir es1 =>
        simp only [hl] at h
        cases hu : updateAt es1 rest t ms with
        | none => simp [hu] at h
        | some es3 =>
          simp only [hu] at h
          obtain rfl : es.replaceE n (.dir es3) = es2 := Option.some.inj h
          exact entriesPres_replaceE hl (updateAt_pres es1 rest t ms es3 hu)

/-- The filesystem transitions of a run are chains of `updateAt`; every
object reachable before the run is still reachable, with the same kind,
after it. -/
theorem run_fsPres : ∀ fuel : Nat,
    (∀ p quiet st st2, loadInputsAux fuel p quiet st = some st2 →
      EntriesPres st.fs st2.fs) ∧
    (∀ p quiet st found r, walkDir fuel p quiet st found = some r →
      EntriesPres st.fs r.1.fs) ∧
    (∀ p ds quiet st found r, walkDirs fuel p ds quiet st found = some r →
      EntriesPres st.fs r.1.fs) ∧
    (∀ p fl quiet st st2, processFiles fuel p fl quiet st = some st2 →
      EntriesPres st.fs st2.fs) ∧
    (∀ p f quiet st st2, processFile fuel p f quiet st = some st2 →
      EntriesPres st.fs st2.fs) := by
  intro fuel
  induction fuel with
  | zero =>
    refine ⟨?_, ?_, ?_, ?_, ?_⟩ <;>
      (intros; simp_all [loadInputsAux, walkDir, walkDirs, processFiles, processFile])
  | succ fuel ih =>
    obtain ⟨ihA, ihW, ihWs, ihPF, ihP⟩ := ih
    refine ⟨?_, ?_, ?_, ?_, ?_⟩
    · -- loadInputsAux
      intro p quiet st st2 h
      simp only [loadInputsAux] at h
      cases hw : walkDir fuel p quiet st false with
      | none => simp [hw] at h
      | some r =>
        simp only [hw] at h
        obtain rfl : _ = st2 := Option.some.inj h
        exact ihW p quiet st false r hw
    · -- walkDir
      intro p quiet st found r h
      simp only [walkDir] at h
      cases hg : (Node.dir st.fs).getPath p with
      | none =>
        simp only [hg] at h
        injection h with h1
        subst h1
        exact nodePres_refl _
      | some nd =>
        cases nd with
        | file c =>
          simp only [hg] at h
          injection h with h1
          subst h1
          exact nodePres_refl _
        | zipf ms =>
          simp only [hg] at h
          injection h with h1
          subst h1
          exact nodePres_refl _
        | dir es =>
          simp only [hg] at h
          cases hpf : processFiles fuel p es.fileNames quiet st with
          | none => simp [hpf] at h
          | some st1 =>
            simp only [hpf] at h
            exact nodePres_trans (ihPF p es.fileNames quiet st st1 hpf)
              (ihWs p es.dirNames quiet st1 _ r h)
    · -- walkDirs
      intro p ds quiet st found r h
      cases ds with
      | nil =>
        simp only [walkDirs] at h
        injection h with h1
        subst h1
        exact nodePres_refl _
      | cons n rest =>
        simp only [walkDirs] at h
        cases hw : walkDir fuel (p ++ [n]) quiet st found with
        | none => simp [hw] at h
        | some u =>
          simp only [hw] at h
          exact nodePres_trans (ihW (p ++ [n]) quiet st found u hw)
            (ihWs p rest quiet u.1 u.2 r h)
    · -- processFiles
      intro p fl quiet st st2 h
      cases fl with
      | nil =>
        simp only [processFiles] at h
        obtain rfl : st = st2 := Option.some.inj h
        exact nodePres_refl _
      | cons f rest =>
        simp only [processFiles] at h
        cases hq : processFile fuel p f quiet st with
        | none => simp [hq] at h
        | some u =>
          simp only [hq] at h
          exact nodePres_trans (ihP p f quiet st u hq)
            (ihPF p rest quiet u st2 h)
    · -- processFile
      intro p f quiet st st2 h
      simp only [processFile] at h
      by_cases hz : pyEndsWith f ".zip"
      · simp only [hz, if_true] at h
        cases hg : (Node.dir st.fs).getPath (p ++ [f]) with
        | none => simp [hg] at h
        | some nd =>
          cases nd with
          | file c => simp [hg] at h
          | dir es => simp [hg] at h
          | zipf ms =>
            simp only [hg] at h
            cases hms : ms.isNil with
            | true =>
              simp only [hms, if_true] at h
              exact ihA (p ++ [(splitext f).1]) quiet { st with fs := st.fs } st2 h
            | false =>
              simp only [hms, Bool.false_eq_true, if_false] at h
              cases hu : updateAt st.fs p (splitext f).1 ms with
              | none => simp [hu] at h
              | some fs1 =>
                simp only [hu] at h
                exact nodePres_trans (updateAt_pres st.fs p (splitext f).1 ms fs1 hu)
                  (ihA (p ++ [(splitext f).1]) quiet { st with fs := fs1 } st2 h)
      · simp only [hz, Bool.false_eq_true, if_false] at h
        cases hr : file_loaders_get (splitext f).2 with
        | none =>
          simp only [hr] at h
          obtain rfl : _ = st2 := Option.some.inj h
          exact nodePres_refl _
        | some tag =>
          simp only [hr] at h
          cases hg : (Node.dir st.fs).getPath (p ++ [f]) with
          | none => simp [hg] at h
          | some nd =>
            simp only [hg] at h
            cases hv : loadVal tag (joinPath p f) nd with
            | none => simp [hv] at h
            | some v =>
              simp only [hv] at h
              obtain rfl : _ = st2 := Option.some.inj h
              exact nodePres_refl _

theorem isFileAt_eq (root : Entries) (π : List String) :
    isFileAt root π = isFileP ((Node.dir root).getPath π) := by
  rw [isFileAt]
  cases hg : (Node.dir root).getPath π with
  | none => rfl
  | some nd => cases nd <;> rfl

/-- C9, amended: `load_inputs` never deletes — every file present under the
input directory before a successful run still exists as a file after it —
and on archive-free trees (no ".zip"-suffixed names) the filesystem is
wholly unchanged; archive expansion can however overwrite the content of
a pre-existing file (see the counterexample). -/
theorem c9_files_never_deleted (fuel : Nat) (root : Entries) (ns : Ns)
    (quiet : Bool) (st : St)
    (h : load_inputs fuel root ns quiet = some st) :
    (∀ π, isFileAt root π = true → isFileAt st.fs π = true) ∧
    (noZipE root = true → st.fs = root) := by
  rw [load_inputs] at h
  constructor
  · intro π hf
    have hp := (run_fsPres fuel).1 [] quiet ⟨root, ns, []⟩ st h
    rw [isFileAt_eq] at hf ⊢
    exact (hp π).1 hf
  · intro hnz
    cases fuel with
    | zero => simp [loadInputsAux] at h
    | succ fuel =>
      simp only [loadInputsAux] at h
      cases hw : walkDir fuel [] quiet ⟨root, ns, []⟩ false with
      | none => rw [hw] at h; exact Option.noConfusion h
      | some r =>
        rw [hw] at h
        obtain rfl : _ = st := Option.some.inj h
        obtain ⟨hfr, _, _, _⟩ :=
          (noZip_inv fuel).1 [] quiet ⟨root, ns, []⟩ false r.1 r.2 hnz hw
        exact hfr

/-- Witness for C9 on an archive-free directory holding one CSV file. -/
theorem c9_files_never_deleted_witness :
    (St.mk (E [("data.csv", .file "v")])
        (nsSet emptyNs "df_data" (.dataFrame "v")) []).fs =
      E [("data.csv", .file "v")] ∧
    isFileAt (St.mk (E [("data.csv", .file "v")])
        (nsSet emptyNs "df_data" (.dataFrame "v")) []).fs ["data.csv"] = true := by
  have h := c9_files_never_deleted 10 (E [("data.csv", .file "v")]) emptyNs true
    (St.mk (E [("data.csv", .file "v")])
      (nsSet emptyNs "df_data" (.dataFrame "v")) []) (by rfl)
  exact ⟨h.2 (by decide), h.1 ["data.csv"] (by decide)⟩
